import Mathlib

/-!
# A shallow embedding of the copy-on-write B+Tree (Go source)

Byte buffers (`[]byte` / `BNode`) are modelled as a length together with a
total byte store `Nat → Nat`; every stored byte is reduced modulo 256.
Reads of multi-byte little-endian integers mirror `binary.LittleEndian`.
Writes, `assert(...)` calls and Go slice-bound panics are modelled in
`Option`: `none` is a panic.  Go's `copy` truncates at the destination
length and never panics, and is modelled accordingly.

`uint16` arithmetic: every value that is stored through a 2-byte write is
reduced modulo 2^16 by the write itself; subtractions (the only places
where wrap-around is reachable) go through `sub16`, which implements
16-bit wrap-around subtraction.  Additions and multiplications of sizes,
counts and positions are kept on `Nat`; in every state whose nodes satisfy
the page-size invariants these quantities stay far below 2^16.

Recursive tree operations take explicit fuel; `none` also covers fuel
exhaustion.
-/

namespace GoDB

/-- A byte buffer (Go `[]byte`): its length and a total byte store. -/
structure BNode where
  size : Nat
  data : Nat → Nat

/-- Go `make([]byte, n)`: a zero-filled buffer. -/
def zeros (n : Nat) : BNode := ⟨n, fun _ => 0⟩

/-- Read one byte. -/
def byteAt (b : BNode) (p : Nat) : Nat := b.data p % 256

/-- Write one byte (unchecked; used only through checked wrappers / `copy`). -/
def wr8 (b : BNode) (pos v : Nat) : BNode :=
  ⟨b.size, fun p => if p = pos then v % 256 else b.data p⟩

/-- Little-endian read of `n` bytes starting at `pos`. -/
def rdLE (b : BNode) (pos : Nat) : Nat → Nat
  | 0 => 0
  | n+1 => byteAt b pos + 256 * rdLE b (pos+1) n

/-- `binary.LittleEndian.Uint16(node[pos:])`. -/
def rd16 (b : BNode) (pos : Nat) : Nat := rdLE b pos 2

/-- `binary.LittleEndian.Uint64(node[pos:])`. -/
def rd64 (b : BNode) (pos : Nat) : Nat := rdLE b pos 8

/-- Little-endian write of `n` bytes of `v` starting at `pos` (unchecked). -/
def wrLE (b : BNode) (pos v : Nat) : Nat → BNode
  | 0 => b
  | n+1 => wrLE (wr8 b pos v) (pos+1) (v/256) n

/-- `binary.LittleEndian.PutUint16(node[pos:], v)`: panics unless the two
bytes fit inside the buffer. -/
def wr16 (b : BNode) (pos v : Nat) : Option BNode :=
  if pos + 2 ≤ b.size then some (wrLE b pos v 2) else none

/-- `binary.LittleEndian.PutUint64(node[pos:], v)`. -/
def wr64 (b : BNode) (pos v : Nat) : Option BNode :=
  if pos + 8 ≤ b.size then some (wrLE b pos v 8) else none

/-- Go `copy(dst[dpos:], src)`: truncating byte copy, never panics. -/
def copyList (b : BNode) (dpos : Nat) : List Nat → BNode
  | [] => b
  | v :: vs => copyList (if dpos < b.size then wr8 b dpos v else b) (dpos+1) vs

/-- Read `len` bytes starting at `pos` as a list. -/
def readBytes (b : BNode) (pos len : Nat) : List Nat :=
  (List.range len).map (fun j => byteAt b (pos + j))

/-- 16-bit wrap-around subtraction (Go `uint16` subtraction). -/
def sub16 (a b : Nat) : Nat := (a + 65536 - b % 65536) % 65536

/-- Go `bytes.Compare` on byte strings. -/
def compareBytes : List Nat → List Nat → Ordering
  | [], [] => .eq
  | [], _ :: _ => .lt
  | _ :: _, [] => .gt
  | a :: as, b :: bs =>
    if a < b then .lt else if b < a then .gt else compareBytes as bs

def HEADER : Nat := 4
def BTREE_PAGE_SIZE : Nat := 4096
def BTREE_MAX_KEY_SIZE : Nat := 1000
def BTREE_MAX_VAL_SIZE : Nat := 3000
def BNODE_NODE : Nat := 1
def BNODE_LEAF : Nat := 2

/-- `node.btype()`. -/
def btype (node : BNode) : Nat := rd16 node 0

/-- `node.nkeys()`. -/
def nkeys (node : BNode) : Nat := rd16 node 2

/-- `node.setHeader(btype, nkeys)`. -/
def setHeader (node : BNode) (bt nk : Nat) : Option BNode := do
  let b ← wr16 node 0 bt
  wr16 b 2 nk

/-- `node.getPtr(idx)`: asserts `idx < node.nkeys()`. -/
def getPtr (node : BNode) (idx : Nat) : Option Nat :=
  if idx < nkeys node then
    if HEADER + 8*idx + 8 ≤ node.size then some (rd64 node (HEADER + 8*idx))
    else none
  else none

/-- `node.setPtr(idx, val)`: asserts `idx < node.nkeys()`. -/
def setPtr (node : BNode) (idx val : Nat) : Option BNode :=
  if idx < nkeys node then wr64 node (HEADER + 8*idx) val else none

/-- `offsetPos(node, idx)`: asserts `1 <= idx && idx <= node.nkeys()`. -/
def offsetPos (node : BNode) (idx : Nat) : Option Nat :=
  if 1 ≤ idx ∧ idx ≤ nkeys node then
    some (HEADER + 8*nkeys node + 2*(idx-1))
  else none

/-- `node.getOffset(idx)`: 0 at index 0, else a 2-byte read. -/
def getOffset (node : BNode) (idx : Nat) : Option Nat :=
  if idx = 0 then some 0
  else do
    let pos ← offsetPos node idx
    if pos + 2 ≤ node.size then some (rd16 node pos) else none

/-- `node.setOffset(idx, offset)`. -/
def setOffset (node : BNode) (idx off : Nat) : Option BNode := do
  let pos ← offsetPos node idx
  wr16 node pos off

/-- `node.kvPos(idx)`: asserts `idx <= node.nkeys()`. -/
def kvPos (node : BNode) (idx : Nat) : Option Nat :=
  if idx ≤ nkeys node then do
    let off ← getOffset node idx
    some (HEADER + 8*nkeys node + 2*nkeys node + off)
  else none

/-- `node.getKey(idx)`: asserts `idx < node.nkeys()`;
`node[pos+4:][:klen]` panics unless it lies inside the buffer. -/
def getKey (node : BNode) (idx : Nat) : Option (List Nat) :=
  if idx < nkeys node then do
    let pos ← kvPos node idx
    if pos + 2 ≤ node.size then
      let klen := rd16 node pos
      if pos + 4 + klen ≤ node.size then some (readBytes node (pos+4) klen)
      else none
    else none
  else none

/-- `node.getVal(idx)`. -/
def getVal (node : BNode) (idx : Nat) : Option (List Nat) :=
  if idx < nkeys node then do
    let pos ← kvPos node idx
    if pos + 4 ≤ node.size then
      let klen := rd16 node pos
      let vlen := rd16 node (pos+2)
      if pos + 4 + klen + vlen ≤ node.size then
        some (readBytes node (pos+4+klen) vlen)
      else none
    else none
  else none

/-- `node.nbytes()`. -/
def nbytes (node : BNode) : Option Nat := kvPos node (nkeys node)

/-- The scan of `nodeLookUpLE` from index `i` with current candidate
`found`, running for at most `fuel` iterations. -/
def lookupAux (node : BNode) (key : List Nat) : Nat → Nat → Nat → Option Nat
  | 0, _, found => some found
  | fuel+1, i, found => do
    let ki ← getKey node i
    match compareBytes ki key with
    | .lt => lookupAux node key fuel (i+1) i
    | .eq => some i
    | .gt => some found

/-- `nodeLookUpLE(node, key)`: linear scan from index 1, candidate updated
on `cmp <= 0`, stop on `cmp >= 0`. -/
def nodeLookUpLE (node : BNode) (key : List Nat) : Option Nat :=
  lookupAux node key (nkeys node - 1) 1 0

/-- `nodeAppendKV(new, idx, ptr, key, val)`. -/
def nodeAppendKV (new : BNode) (idx ptr : Nat) (key val : List Nat) :
    Option BNode := do
  let b ← setPtr new idx ptr
  let pos ← kvPos b idx
  let b ← wr16 b pos key.length
  let b ← wr16 b (pos+2) val.length
  let b := copyList b (pos+4) key
  let b := copyList b (pos + 4 + key.length % 65536) val
  let off ← getOffset b idx
  setOffset b (idx+1) (off + 4 + (key.length + val.length) % 65536)

/-- The pointer-copying loop of `nodeAppendRange`. -/
def ptrCopyAux (old : BNode) (srcOld dstNew : Nat) :
    Nat → Nat → BNode → Option BNode
  | _, 0, b => some b
  | i, rem+1, b => do
    let p ← getPtr old (srcOld + i)
    let b ← setPtr b (dstNew + i) p
    ptrCopyAux old srcOld dstNew (i+1) rem b

/-- The offset-rebasing loop of `nodeAppendRange`. -/
def offCopyAux (old : BNode) (srcOld dstNew dstBegin srcBegin : Nat) :
    Nat → Nat → BNode → Option BNode
  | _, 0, b => some b
  | i, rem+1, b => do
    let so ← getOffset old (srcOld + i)
    let b ← setOffset b (dstNew + i) (dstBegin + sub16 so srcBegin)
    offCopyAux old srcOld dstNew dstBegin srcBegin (i+1) rem b

/-- `nodeAppendRange(new, old, dstNew, srcOld, n)`. -/
def nodeAppendRange (new old : BNode) (dstNew srcOld n : Nat) :
    Option BNode :=
  if srcOld + n ≤ nkeys old then
    if dstNew + n ≤ nkeys new then
      if n = 0 then some new
      else do
        let b ← ptrCopyAux old srcOld dstNew 0 n new
        let dstBegin ← getOffset b dstNew
        let srcBegin ← getOffset old srcOld
        let b ← offCopyAux old srcOld dstNew dstBegin srcBegin 1 n b
        let bpos ← kvPos old srcOld
        let epos ← kvPos old (srcOld + n)
        let dpos ← kvPos b dstNew
        if bpos ≤ epos ∧ epos ≤ old.size ∧ dpos ≤ b.size then
          some (copyList b dpos (readBytes old bpos (epos - bpos)))
        else none
    else none
  else none

/-- `leafInsert(new, old, idx, key, val)` — note the source never writes
the new entry itself. -/
def leafInsert (new old : BNode) (idx : Nat) (key val : List Nat) :
    Option BNode := do
  let _ := (key, val)
  let b ← setHeader new BNODE_LEAF (nkeys old + 1)
  let b ← nodeAppendRange b old 0 0 idx
  nodeAppendRange b old (idx+1) idx (sub16 (nkeys old) idx)

/-- `leafDelete(new, old, idx)`. -/
def leafDelete (new old : BNode) (idx : Nat) : Option BNode := do
  let b ← setHeader new BNODE_LEAF (sub16 (nkeys old) 1)
  let b ← nodeAppendRange b old 0 0 idx
  nodeAppendRange b old idx (idx+1) (sub16 (nkeys old) (idx+1))

/-- `nodeMerge(new, left, right)`. -/
def nodeMerge (new left right : BNode) : Option BNode := do
  let b ← setHeader new (btype left) (nkeys left + nkeys right)
  let b ← nodeAppendRange b left 0 0 (nkeys left)
  nodeAppendRange b right (nkeys left) 0 (nkeys right)

/-- `node.setKey(idx, key)` — writes only `klen` and the key bytes. -/
def setKey (node : BNode) (idx : Nat) (key : List Nat) : Option BNode := do
  let pos ← kvPos node idx
  let b ← wr16 node pos key.length
  some (copyList b (pos+4) key)

/-- `nodeReplace2Kid(new, old, idx, ptr, key)`. -/
def nodeReplace2Kid (new old : BNode) (idx ptr : Nat) (key : List Nat) :
    Option BNode := do
  let b ← setHeader new BNODE_NODE (sub16 (nkeys old) 1)
  let b ← nodeAppendRange b old 0 0 idx
  let b ← nodeAppendRange b old idx (idx+2) (sub16 (nkeys old) (idx+2))
  let b ← setPtr b idx ptr
  setKey b idx key

/-- `nodeSplit2(left, right, old)`: the source body is a `TODO` stub and
performs no writes. -/
def nodeSplit2 (left right old : BNode) : Option (BNode × BNode) := do
  let _ := old
  some (left, right)

/-- `nodeSplit3(old)`: returns a count and that many nodes. -/
def nodeSplit3 (old : BNode) : Option (Nat × List BNode) := do
  let nb ← nbytes old
  if nb ≤ BTREE_PAGE_SIZE then
    if BTREE_PAGE_SIZE ≤ old.size then
      some (1, [{ old with size := BTREE_PAGE_SIZE }])
    else none
  else
    let left := zeros (2*BTREE_PAGE_SIZE)
    let right := zeros BTREE_PAGE_SIZE
    let lb ← nbytes left
    if lb ≤ BTREE_PAGE_SIZE then
      some (2, [{ left with size := BTREE_PAGE_SIZE }, right])
    else do
      let leftLeft := zeros BTREE_PAGE_SIZE
      let middle := zeros BTREE_PAGE_SIZE
      let (ll, m) ← nodeSplit2 leftLeft middle left
      let llb ← nbytes ll
      if llb ≤ BTREE_PAGE_SIZE then some (3, [ll, m, right]) else none

/-- The tree: root page id plus the page-manager state of the test
harness `newC` (a map from page id to page, a fresh-id counter, and
counters of `allocate` / `free` calls). -/
structure BTreeState where
  root : Nat
  pages : Nat → Option BNode
  nextId : Nat
  allocs : Nat
  frees : Nat

/-- `tree.get(ptr)`: asserts the page exists. -/
def pageGet (s : BTreeState) (ptr : Nat) : Option BNode := s.pages ptr

/-- `tree.new(node)`: asserts `node.nbytes() <= BTREE_PAGE_SIZE` and that
the id is unused; returns a fresh nonzero id. -/
def pageNew (s : BTreeState) (node : BNode) : Option (Nat × BTreeState) := do
  let nb ← nbytes node
  if nb ≤ BTREE_PAGE_SIZE then
    if (s.pages s.nextId).isNone ∧ s.nextId ≠ 0 then
      some (s.nextId,
        { s with
          pages := fun p => if p = s.nextId then some node else s.pages p,
          nextId := s.nextId + 1,
          allocs := s.allocs + 1 })
    else none
  else none

/-- `tree.del(ptr)`: asserts the page exists. -/
def pageDel (s : BTreeState) (ptr : Nat) : Option BTreeState :=
  if (s.pages ptr).isSome then
    some { s with
           pages := fun p => if p = ptr then none else s.pages p,
           frees := s.frees + 1 }
  else none

/-- The kid loop of `nodeReplaceKidN`: allocate each kid and append
`(ptr, kid.getKey(0), nil)`. -/
def kidsLoopAux (s : BTreeState) (b : BNode) (idx : Nat) :
    Nat → List BNode → Option (BNode × BTreeState)
  | _, [] => some (b, s)
  | i, kid :: rest => do
    let (ptr, s') ← pageNew s kid
    let k0 ← getKey kid 0
    let b' ← nodeAppendKV b (idx + i) ptr k0 []
    kidsLoopAux s' b' idx (i+1) rest

/-- `nodeReplaceKidN(tree, new, old, idx, kids...)`. -/
def nodeReplaceKidN (s : BTreeState) (new old : BNode) (idx : Nat)
    (kids : List BNode) : Option (BNode × BTreeState) := do
  let inc := kids.length
  let b ← setHeader new BNODE_NODE (sub16 (nkeys old + inc) 1)
  let b ← nodeAppendRange b old 0 0 idx
  let (b, s') ← kidsLoopAux s b idx 0 kids
  let b ← nodeAppendRange b old (idx + inc) (idx + 1)
    (sub16 (nkeys old) (idx + 1))
  some (b, s')

/-- `nodeInsert(tree, new, node, idx, key, val)`: recurse into the child
(through the supplied recursive-insertion function), split the result,
free the old child, replace the slot. -/
def nodeInsert
    (rec : BTreeState → BNode → List Nat → List Nat →
       Option (BNode × BTreeState))
    (s : BTreeState) (new node : BNode) (idx : Nat)
    (key val : List Nat) : Option (BNode × BTreeState) := do
  let kptr ← getPtr node idx
  let child ← pageGet s kptr
  let (knode, s1) ← rec s child key val
  let (nsplit, split) ← nodeSplit3 knode
  let s2 ← pageDel s1 kptr
  nodeReplaceKidN s2 new node idx (split.take nsplit)

/-- `treeInsert(tree, node, key, val)`: recursive insertion; the result
buffer may be oversized.  On the leaf-update branch the source's
`leafUpdate` call is commented out, so the scratch buffer is returned
with no writes at all. -/
def treeInsert (s : BTreeState) (node : BNode) (key val : List Nat) :
    Nat → Option (BNode × BTreeState)
  | 0 => none
  | fuel+1 => do
    let new := zeros (2*BTREE_PAGE_SIZE)
    let idx ← nodeLookUpLE node key
    if btype node = BNODE_LEAF then do
      let ki ← getKey node idx
      if key = ki then
        some (new, s)
      else do
        let b ← leafInsert new node (idx+1) key val
        some (b, s)
    else if btype node = BNODE_NODE then
      nodeInsert (fun s' n' k' v' => treeInsert s' n' k' v' fuel)
        s new node idx key val
    else none

/-- `shouldMerge`'s right-sibling check (the second `if` of the source). -/
def shouldMergeRight (s : BTreeState) (node : BNode) (idx ub : Nat) :
    Option (Int × BNode) :=
  if idx + 1 < nkeys node then do
    let p ← getPtr node (idx+1)
    let sib ← pageGet s p
    let sb ← nbytes sib
    if sub16 (sb + ub) HEADER ≤ BTREE_PAGE_SIZE then some (1, sib)
    else some (0, zeros 0)
  else some (0, zeros 0)

/-- `shouldMerge(tree, node, idx, updated)`. -/
def shouldMerge (s : BTreeState) (node : BNode) (idx : Nat)
    (updated : BNode) : Option (Int × BNode) := do
  let ub ← nbytes updated
  if ub > BTREE_PAGE_SIZE / 4 then some (0, zeros 0)
  else if idx > 0 then do
    let p ← getPtr node (idx-1)
    let sib ← pageGet s p
    let sb ← nbytes sib
    if sub16 (sb + ub) HEADER ≤ BTREE_PAGE_SIZE then some (-1, sib)
    else shouldMergeRight s node idx ub
  else shouldMergeRight s node idx ub

/-- `nodeDelete(tree, node, idx, key)`: recurse (through the supplied
recursive-deletion function), then merge or replace. -/
def nodeDelete
    (rec : BTreeState → BNode → List Nat → Option (BNode × BTreeState))
    (s : BTreeState) (node : BNode) (idx : Nat)
    (key : List Nat) : Option (BNode × BTreeState) := do
  let kptr ← getPtr node idx
  let child ← pageGet s kptr
  let (updated, s1) ← rec s child key
  if updated.size = 0 then some (zeros 0, s1)
  else do
    let s2 ← pageDel s1 kptr
    let new := zeros BTREE_PAGE_SIZE
    let (dir, sib) ← shouldMerge s2 node idx updated
    if dir < 0 then do
      let merged := zeros BTREE_PAGE_SIZE
      let m ← nodeMerge merged sib updated
      let p ← getPtr node (idx-1)
      let s3 ← pageDel s2 p
      let (mp, s4) ← pageNew s3 m
      let k0 ← getKey m 0
      let b ← nodeReplace2Kid new node (idx-1) mp k0
      some (b, s4)
    else if dir > 0 then do
      let merged := zeros BTREE_PAGE_SIZE
      let m ← nodeMerge merged updated sib
      let p ← getPtr node (idx+1)
      let s3 ← pageDel s2 p
      let (mp, s4) ← pageNew s3 m
      let k0 ← getKey m 0
      let b ← nodeReplace2Kid new node idx mp k0
      some (b, s4)
    else if nkeys updated = 0 then
      if nkeys node = 1 ∧ idx = 0 then do
        let b ← setHeader new BNODE_NODE 0
        some (b, s2)
      else none
    else
      nodeReplaceKidN s2 new node idx [updated]

/-- `treeDelete(tree, node, key)`: returns a size-0 buffer to signal
"key not found". -/
def treeDelete (s : BTreeState) (node : BNode) (key : List Nat) :
    Nat → Option (BNode × BTreeState)
  | 0 => none
  | fuel+1 => do
    let new := zeros (2*BTREE_PAGE_SIZE)
    let idx ← nodeLookUpLE node key
    if btype node = BNODE_LEAF then do
      let ki ← getKey node idx
      if key = ki then do
        let b ← leafDelete new node idx
        some (b, s)
      else
        some (zeros 0, s)
    else if btype node = BNODE_NODE then
      nodeDelete (fun s' n' k' => treeDelete s' n' k' fuel) s node idx key
    else none

/-- The loop of `Insert`'s new-root construction:
`ptr, key := tree.new(knode), knode.getKey(0); nodeAppendKV(root, i, ptr, key, nil)`. -/
def insertSplitLoop (s : BTreeState) (b : BNode) :
    Nat → List BNode → Option (BNode × BTreeState)
  | _, [] => some (b, s)
  | i, k :: rest => do
    let (p, s') ← pageNew s k
    let k0 ← getKey k 0
    let b' ← nodeAppendKV b i p k0 []
    insertSplitLoop s' b' (i+1) rest

/-- `(tree *BTree) Insert(key, val)`. -/
def Insert (s : BTreeState) (key val : List Nat) (fuel : Nat) :
    Option BTreeState :=
  if s.root = 0 then do
    let root := zeros BTREE_PAGE_SIZE
    let b ← setHeader root BNODE_LEAF 2
    let b ← nodeAppendKV b 0 0 [] []
    let b ← nodeAppendKV b 1 0 key val
    let (np, s1) ← pageNew s b
    some { s1 with root := np }
  else do
    let rootNode ← pageGet s s.root
    let (node, s1) ← treeInsert s rootNode key val fuel
    let (nsplit, split) ← nodeSplit3 node
    let s2 ← pageDel s1 s.root
    if nsplit > 1 then do
      let root := zeros BTREE_PAGE_SIZE
      let b ← setHeader root BNODE_NODE nsplit
      let (b, s3) ← insertSplitLoop s2 b 0 (split.take nsplit)
      let (np, s4) ← pageNew s3 b
      some { s4 with root := np }
    else do
      let (np, s3) ← pageNew s2 (split.headD (zeros 0))
      some { s3 with root := np }

/-- The loop of `Delete`'s (dead) root-split branch:
`newRoot.setPtr(i, tree.new(knode)); newRoot.setKey(i, knode.getKey(0))`. -/
def deleteSplitLoop (s : BTreeState) (b : BNode) :
    Nat → List BNode → Option (BNode × BTreeState)
  | _, [] => some (b, s)
  | i, k :: rest => do
    let (p, s') ← pageNew s k
    let b' ← setPtr b i p
    let k0 ← getKey k 0
    let b' ← setKey b' i k0
    deleteSplitLoop s' b' (i+1) rest

/-- `(tree *BTree) Delete(key) bool`. -/
def Delete (s : BTreeState) (key : List Nat) (fuel : Nat) :
    Option (Bool × BTreeState) :=
  if s.root = 0 then some (false, s)
  else do
    let rootNode ← pageGet s s.root
    let (updated, s1) ← treeDelete s rootNode key fuel
    if updated.size = 0 then some (false, s1)
    else do
      let s2 ← pageDel s1 s.root
      if btype updated = BNODE_NODE ∧ nkeys updated = 1 then do
        let p ← getPtr updated 0
        let newRoot ← pageGet s2 p
        let (np, s3) ← pageNew s2 newRoot
        let s4 ← pageDel s3 p
        some (true, { s4 with root := np })
      else if btype updated = BNODE_LEAF ∧ nkeys updated = 0 then
        some (true, { s2 with root := 0 })
      else do
        let ub ← nbytes updated
        if ub ≤ BTREE_PAGE_SIZE then do
          let (np, s3) ← pageNew s2 updated
          some (true, { s3 with root := np })
        else do
          let (nsplit, split) ← nodeSplit3 updated
          if nsplit > 1 then do
            let newRoot := zeros BTREE_PAGE_SIZE
            let b ← setHeader newRoot BNODE_NODE nsplit
            let (b, s3) ← deleteSplitLoop s2 b 0 (split.take nsplit)
            let (np, s4) ← pageNew s3 b
            some (true, { s4 with root := np })
          else do
            let (np, s3) ← pageNew s2 (split.headD (zeros 0))
            some (true, { s3 with root := np })

/-- Modelled from the spec: the repository has no point-lookup operation,
only `Insert` and `Delete`; the spec and the claims define retrieval as
"descending from the root following `lookup_le` at each internal node and
checking key equality at the leaf".  `some (some v)` means the key was
found with value `v`, `some none` means the traversal completed and the
key is absent, `none` means the traversal panicked or ran out of fuel. -/
def treeGetNode (s : BTreeState) (key : List Nat) :
    Nat → BNode → Option (Option (List Nat))
  | 0, _ => none
  | fuel+1, node => do
    let idx ← nodeLookUpLE node key
    if btype node = BNODE_LEAF then do
      let ki ← getKey node idx
      if key = ki then do
        let v ← getVal node idx
        some (some v)
      else some none
    else if btype node = BNODE_NODE then do
      let p ← getPtr node idx
      let child ← pageGet s p
      treeGetNode s key fuel child
    else none

/-- Modelled from the spec (see `treeGetNode`): retrieval from the root;
an empty tree (`root = 0`) holds no keys. -/
def treeGet (s : BTreeState) (key : List Nat) (fuel : Nat) :
    Option (Option (List Nat)) :=
  if s.root = 0 then some none
  else do
    let rootNode ← pageGet s s.root
    treeGetNode s key fuel rootNode

/-! ## Concrete states used by the theorems -/

/-- The empty tree over an empty page store; fresh page ids start at 1. -/
def s0 : BTreeState := ⟨0, fun _ => none, 1, 0, 0⟩

/-- `Insert("a","1")` then `Insert("b","2")` on the empty tree. -/
def runC1 : Option BTreeState := do
  let s1 ← Insert s0 [97] [49] 5
  Insert s1 [98] [50] 5

/-- A 2-entry leaf: the sentinel `("","")` and `("a","1")` — exactly the
root leaf the source builds on first insertion. -/
def leaf_a1 : Option BNode := do
  let b ← setHeader (zeros BTREE_PAGE_SIZE) BNODE_LEAF 2
  let b ← nodeAppendKV b 0 0 [] []
  nodeAppendKV b 1 0 [97] [49]

/-- An oversized but well-formed leaf given directly by a byte formula:
3 entries `("","")`, `("a", 2100 × 0x78)`, `("b", 2100 × 0x78)`;
offsets 4, 2109, 4214; `nbytes = 34 + 4214 = 4248 > 4096`. -/
def dataC2 : Nat → Nat := fun p =>
  if p = 0 then 2 else if p = 2 then 3
  else if p = 28 then 4
  else if p = 30 then 61 else if p = 31 then 8
  else if p = 32 then 118 else if p = 33 then 16
  else if p = 38 then 1 else if p = 40 then 52 else if p = 41 then 8
  else if p = 42 then 97
  else if 43 ≤ p ∧ p ≤ 2142 then 120
  else if p = 2143 then 1 else if p = 2145 then 52 else if p = 2146 then 8
  else if p = 2147 then 98
  else if 2148 ≤ p ∧ p ≤ 4247 then 120
  else 0

/-- The oversized leaf, in a transient double-page buffer as produced by
`treeInsert`'s scratch allocation. -/
def oldC2 : BNode := ⟨2*BTREE_PAGE_SIZE, dataC2⟩

/-- An internal node with 4 entries
`(11,"")`, `(12,"b")`, `(13,"c")`, `(14,"d")`. -/
def oldC9 : Option BNode := do
  let b ← setHeader (zeros BTREE_PAGE_SIZE) BNODE_NODE 4
  let b ← nodeAppendKV b 0 11 [] []
  let b ← nodeAppendKV b 1 12 [98] []
  let b ← nodeAppendKV b 2 13 [99] []
  nodeAppendKV b 3 14 [100] []

/-- `Insert("k","v")` on the empty tree, then `Delete("k")`. -/
def runC6 : Option (Bool × BTreeState) := do
  let s1 ← Insert s0 [107] [118] 5
  Delete s1 [107] 5

/-- `Insert("a","1")` then `Insert("", "v")` on the empty tree. -/
def runC8 : Option BTreeState := do
  let s1 ← Insert s0 [97] [49] 5
  Insert s1 [] [118] 5

/-! ## Basic lemmas about the byte-buffer primitives -/

theorem wr8_size (b : BNode) (pos v : Nat) : (wr8 b pos v).size = b.size := rfl

theorem wrLE_size (n : Nat) : ∀ (b : BNode) (pos v : Nat),
    (wrLE b pos v n).size = b.size := by
  induction n with
  | zero => intro b pos v; rfl
  | succ n ih => intro b pos v; simp [wrLE, ih, wr8_size]

theorem wr16_size {b b' : BNode} {pos v : Nat} (h : wr16 b pos v = some b') :
    b'.size = b.size := by
  unfold wr16 at h
  split at h
  · cases h; exact wrLE_size 2 b pos v
  · cases h

theorem wr64_size {b b' : BNode} {pos v : Nat} (h : wr64 b pos v = some b') :
    b'.size = b.size := by
  unfold wr64 at h
  split at h
  · cases h; exact wrLE_size 8 b pos v
  · cases h

theorem copyList_size (l : List Nat) : ∀ (b : BNode) (dpos : Nat),
    (copyList b dpos l).size = b.size := by
  induction l with
  | nil => intro b dpos; rfl
  | cons v vs ih =>
    intro b dpos
    simp only [copyList, ih]
    split <;> rfl

theorem setHeader_size {node b' : BNode} {bt nk : Nat}
    (h : setHeader node bt nk = some b') : b'.size = node.size := by
  unfold setHeader at h
  obtain ⟨a, ha, hb⟩ := Option.bind_eq_some.mp h
  rw [wr16_size hb, wr16_size ha]

theorem setPtr_size {node b' : BNode} {idx v : Nat}
    (h : setPtr node idx v = some b') : b'.size = node.size := by
  unfold setPtr at h
  split at h
  · exact wr64_size h
  · cases h

theorem setOffset_size {node b' : BNode} {idx off : Nat}
    (h : setOffset node idx off = some b') : b'.size = node.size := by
  unfold setOffset at h
  obtain ⟨a, _, hb⟩ := Option.bind_eq_some.mp h
  exact wr16_size hb

theorem setKey_size {node b' : BNode} {idx : Nat} {key : List Nat}
    (h : setKey node idx key = some b') : b'.size = node.size := by
  unfold setKey at h
  obtain ⟨p, _, h⟩ := Option.bind_eq_some.mp h
  obtain ⟨a, ha, hb⟩ := Option.bind_eq_some.mp h
  cases hb
  rw [copyList_size, wr16_size ha]

theorem nodeAppendKV_size {new b' : BNode} {idx ptr : Nat} {key val : List Nat}
    (h : nodeAppendKV new idx ptr key val = some b') : b'.size = new.size := by
  unfold nodeAppendKV at h
  obtain ⟨a, ha, h⟩ := Option.bind_eq_some.mp h
  obtain ⟨p, _, h⟩ := Option.bind_eq_some.mp h
  obtain ⟨c, hc, h⟩ := Option.bind_eq_some.mp h
  obtain ⟨d, hd, h⟩ := Option.bind_eq_some.mp h
  obtain ⟨e, _, h⟩ := Option.bind_eq_some.mp h
  rw [setOffset_size h, copyList_size, copyList_size, wr16_size hd,
    wr16_size hc, setPtr_size ha]

theorem ptrCopyAux_size {old : BNode} {srcOld dstNew : Nat} :
    ∀ {rem i : Nat} {b b' : BNode},
    ptrCopyAux old srcOld dstNew i rem b = some b' → b'.size = b.size := by
  intro rem
  induction rem with
  | zero => intro i b b' h; cases h; rfl
  | succ rem ih =>
    intro i b b' h
    unfold ptrCopyAux at h
    obtain ⟨p, _, h⟩ := Option.bind_eq_some.mp h
    obtain ⟨c, hc, h⟩ := Option.bind_eq_some.mp h
    rw [ih h, setPtr_size hc]

theorem offCopyAux_size {old : BNode} {srcOld dstNew dstBegin srcBegin : Nat} :
    ∀ {rem i : Nat} {b b' : BNode},
    offCopyAux old srcOld dstNew dstBegin srcBegin i rem b = some b' →
    b'.size = b.size := by
  intro rem
  induction rem with
  | zero => intro i b b' h; cases h; rfl
  | succ rem ih =>
    intro i b b' h
    unfold offCopyAux at h
    obtain ⟨so, _, h⟩ := Option.bind_eq_some.mp h
    obtain ⟨c, hc, h⟩ := Option.bind_eq_some.mp h
    rw [ih h, setOffset_size hc]

theorem nodeAppendRange_size {new old b' : BNode} {dstNew srcOld n : Nat}
    (h : nodeAppendRange new old dstNew srcOld n = some b') :
    b'.size = new.size := by
  unfold nodeAppendRange at h
  split at h
  · split at h
    · split at h
      · cases h; rfl
      · obtain ⟨a, ha, h⟩ := Option.bind_eq_some.mp h
        obtain ⟨d1, _, h⟩ := Option.bind_eq_some.mp h
        obtain ⟨d2, _, h⟩ := Option.bind_eq_some.mp h
        obtain ⟨c, hc, h⟩ := Option.bind_eq_some.mp h
        obtain ⟨p1, _, h⟩ := Option.bind_eq_some.mp h
        obtain ⟨p2, _, h⟩ := Option.bind_eq_some.mp h
        obtain ⟨p3, _, h⟩ := Option.bind_eq_some.mp h
        split at h
        · cases h
          rw [copyList_size, offCopyAux_size hc, ptrCopyAux_size ha]
        · cases h
    · cases h
  · cases h

theorem leafDelete_size {new old b' : BNode} {idx : Nat}
    (h : leafDelete new old idx = some b') : b'.size = new.size := by
  unfold leafDelete at h
  obtain ⟨a, ha, h⟩ := Option.bind_eq_some.mp h
  obtain ⟨c, hc, h⟩ := Option.bind_eq_some.mp h
  rw [nodeAppendRange_size h, nodeAppendRange_size hc, setHeader_size ha]

theorem leafInsert_size {new old b' : BNode} {idx : Nat} {key val : List Nat}
    (h : leafInsert new old idx key val = some b') : b'.size = new.size := by
  unfold leafInsert at h
  obtain ⟨a, ha, h⟩ := Option.bind_eq_some.mp h
  obtain ⟨c, hc, h⟩ := Option.bind_eq_some.mp h
  rw [nodeAppendRange_size h, nodeAppendRange_size hc, setHeader_size ha]

theorem nodeReplace2Kid_size {new old b' : BNode} {idx ptr : Nat}
    {key : List Nat} (h : nodeReplace2Kid new old idx ptr key = some b') :
    b'.size = new.size := by
  unfold nodeReplace2Kid at h
  obtain ⟨a, ha, h⟩ := Option.bind_eq_some.mp h
  obtain ⟨c, hc, h⟩ := Option.bind_eq_some.mp h
  obtain ⟨d, hd, h⟩ := Option.bind_eq_some.mp h
  obtain ⟨e, he, h⟩ := Option.bind_eq_some.mp h
  rw [setKey_size h, setPtr_size he, nodeAppendRange_size hd,
    nodeAppendRange_size hc, setHeader_size ha]

theorem kidsLoopAux_size {idx : Nat} :
    ∀ {kids : List BNode} {i : Nat} {s s' : BTreeState} {b b' : BNode},
    kidsLoopAux s b idx i kids = some (b', s') → b'.size = b.size := by
  intro kids
  induction kids with
  | nil => intro i s s' b b' h; cases h; rfl
  | cons kid rest ih =>
    intro i s s' b b' h
    unfold kidsLoopAux at h
    obtain ⟨⟨p, s1⟩, _, h⟩ := Option.bind_eq_some.mp h
    obtain ⟨k0, _, h⟩ := Option.bind_eq_some.mp h
    obtain ⟨c, hc, h⟩ := Option.bind_eq_some.mp h
    rw [ih h, nodeAppendKV_size hc]

theorem nodeReplaceKidN_size {s s' : BTreeState} {new old b' : BNode}
    {idx : Nat} {kids : List BNode}
    (h : nodeReplaceKidN s new old idx kids = some (b', s')) :
    b'.size = new.size := by
  unfold nodeReplaceKidN at h
  obtain ⟨a, ha, h⟩ := Option.bind_eq_some.mp h
  obtain ⟨c, hc, h⟩ := Option.bind_eq_some.mp h
  obtain ⟨⟨d, s1⟩, hd, h⟩ := Option.bind_eq_some.mp h
  obtain ⟨e, he, h⟩ := Option.bind_eq_some.mp h
  cases h
  rw [nodeAppendRange_size he, kidsLoopAux_size hd, nodeAppendRange_size hc,
    setHeader_size ha]

/-! ## Order lemmas for `compareBytes` -/

theorem compareBytes_self : ∀ a : List Nat, compareBytes a a = .eq := by
  intro a
  induction a with
  | nil => rfl
  | cons x xs ih => simp [compareBytes, ih]

theorem compareBytes_eq_iff : ∀ {a b : List Nat},
    compareBytes a b = .eq ↔ a = b := by
  intro a
  induction a with
  | nil => intro b; cases b <;> simp [compareBytes]
  | cons x xs ih =>
    intro b
    cases b with
    | nil => simp [compareBytes]
    | cons y ys =>
      simp only [compareBytes]
      rcases Nat.lt_trichotomy x y with h | h | h
      · simp [h, Nat.ne_of_lt h]
      · subst h
        simp [Nat.lt_irrefl, ih]
      · simp [Nat.lt_asymm h, h, (Nat.ne_of_lt h).symm]

theorem compareBytes_gt_iff_lt : ∀ {a b : List Nat},
    compareBytes a b = .gt ↔ compareBytes b a = .lt := by
  intro a
  induction a with
  | nil => intro b; cases b <;> simp [compareBytes]
  | cons x xs ih =>
    intro b
    cases b with
    | nil => simp [compareBytes]
    | cons y ys =>
      simp only [compareBytes]
      rcases Nat.lt_trichotomy x y with h | h | h
      · simp [h, Nat.lt_asymm h]
      · subst h
        simp [Nat.lt_irrefl, ih]
      · simp [h, Nat.lt_asymm h]

theorem compareBytes_lt_trans : ∀ {a b c : List Nat},
    compareBytes a b = .lt → compareBytes b c = .lt →
    compareBytes a c = .lt := by
  intro a
  induction a with
  | nil =>
    intro b c h₁ h₂
    cases b with
    | nil => exact h₂
    | cons y ys =>
      cases c with
      | nil => simp [compareBytes] at h₂
      | cons z zs => simp [compareBytes]
  | cons x xs ih =>
    intro b c h₁ h₂
    cases b with
    | nil => simp [compareBytes] at h₁
    | cons y ys =>
      cases c with
      | nil => simp [compareBytes] at h₂
      | cons z zs =>
        simp only [compareBytes] at h₁ h₂ ⊢
        rcases Nat.lt_trichotomy x y with hxy | hxy | hxy
        · rcases Nat.lt_trichotomy y z with hyz | hyz | hyz
          · simp [Nat.lt_trans hxy hyz]
          · subst hyz; simp [hxy]
          · simp [hyz, Nat.lt_asymm hyz] at h₂
        · subst hxy
          rcases Nat.lt_trichotomy x z with hyz | hyz | hyz
          · simp [hyz]
          · subst hyz
            simp only [Nat.lt_irrefl, if_neg (Nat.lt_irrefl x)] at h₁ h₂ ⊢
            simp at h₁ h₂ ⊢
            exact ih h₁ h₂
          · simp [hyz, Nat.lt_asymm hyz] at h₂
        · simp [hxy, Nat.lt_asymm hxy] at h₁

/-! ## C7: correctness of `nodeLookUpLE` -/

/-- The scan invariant: starting at index `i` with a qualifying candidate
`found` that dominates every qualifying index below `i`, the loop returns
the largest qualifying index of the whole node. -/
theorem lookupAux_largest (node : BNode) (key : List Nat)
    (ks : Nat → List Nat)
    (hks : ∀ i, i < nkeys node → getKey node i = some (ks i))
    (hsort : ∀ i j, 1 ≤ i → i < j → j < nkeys node →
      compareBytes (ks i) (ks j) = .lt) :
    ∀ (fuel i found : Nat), i + fuel = nkeys node → 1 ≤ i → found < i →
    compareBytes (ks found) key ≠ .gt →
    (∀ j, j < i → compareBytes (ks j) key ≠ .gt → j ≤ found) →
    ∃ r, lookupAux node key fuel i found = some r ∧ r < nkeys node ∧
      compareBytes (ks r) key ≠ .gt ∧
      (∀ j, j < nkeys node → compareBytes (ks j) key ≠ .gt → j ≤ r) := by
  intro fuel
  induction fuel with
  | zero =>
    intro i found hfi hi1 hfd hq hmax
    refine ⟨found, rfl, ?_, hq, ?_⟩
    · omega
    · intro j hj hjq
      exact hmax j (by omega) hjq
  | succ fuel ih =>
    intro i found hfi hi1 hfd hq hmax
    have hi : i < nkeys node := by omega
    have hkey := hks i hi
    have hstep : lookupAux node key (fuel+1) i found =
        (match compareBytes (ks i) key with
         | .lt => lookupAux node key fuel (i+1) i
         | .eq => some i
         | .gt => some found) := by
      simp only [lookupAux]
      rw [hkey]
      rfl
    cases hcmp : compareBytes (ks i) key with
    | lt =>
      rw [hcmp] at hstep
      obtain ⟨r, hr, h1, h2⟩ := ih (i+1) i (by omega) (by omega) (by omega)
        (by rw [hcmp]; simp) (fun j hj _ => by omega)
      exact ⟨r, by rw [hstep, hr], h1, h2⟩
    | eq =>
      rw [hcmp] at hstep
      refine ⟨i, hstep, hi, by rw [hcmp]; simp, ?_⟩
      intro j hj hjq
      by_contra hji
      push_neg at hji
      have hlt := hsort i j hi1 hji hj
      have : compareBytes (ks j) key = .gt := by
        rw [compareBytes_gt_iff_lt]
        have hkeq : ks i = key := compareBytes_eq_iff.mp hcmp
        rw [← hkeq]
        exact hlt
      exact hjq this
    | gt =>
      rw [hcmp] at hstep
      refine ⟨found, hstep, by omega, hq, ?_⟩
      intro j hj hjq
      rcases Nat.lt_trichotomy j i with hji | hji | hji
      · exact hmax j hji hjq
      · subst hji; exact absurd hcmp hjq
      · exfalso
        have hlt := hsort i j hi1 hji hj
        have hkg : compareBytes key (ks i) = .lt :=
          compareBytes_gt_iff_lt.mp hcmp
        have : compareBytes key (ks j) = .lt :=
          compareBytes_lt_trans hkg hlt
        exact hjq (compareBytes_gt_iff_lt.mpr this)

/-- C7: confirmed.  For every node with `nkeys >= 1` whose keys can be
read (`getKey node i = some (ks i)`), whose keys from index 1 on are
strictly ascending under `compareBytes` (the node well-formedness
invariant of the spec), and whose key 0 satisfies `key(0) <= key`,
`nodeLookUpLE` returns the largest index `i < nkeys` with
`key(i) <= key`; in particular it returns a matching index itself (never
its successor), and 0 when no index `>= 1` qualifies (maximality forces
`r = 0` then). -/
theorem nodeLookUpLE_returns_largest_le (node : BNode) (key : List Nat)
    (ks : Nat → List Nat)
    (hn : 1 ≤ nkeys node)
    (hks : ∀ i, i < nkeys node → getKey node i = some (ks i))
    (hsort : ∀ i j, 1 ≤ i → i < j → j < nkeys node →
      compareBytes (ks i) (ks j) = .lt)
    (h0 : compareBytes (ks 0) key ≠ .gt) :
    ∃ r, nodeLookUpLE node key = some r ∧ r < nkeys node ∧
      compareBytes (ks r) key ≠ .gt ∧
      (∀ j, j < nkeys node → compareBytes (ks j) key ≠ .gt → j ≤ r) ∧
      (∀ i, 1 ≤ i → i < nkeys node → ks i = key → r = i) := by
  have main := lookupAux_largest node key ks hks hsort (nkeys node - 1) 1 0
    (by omega) (by omega) (by omega) h0 (by intro j hj _; omega)
  obtain ⟨r, hr, h1, h2, h3⟩ := main
  refine ⟨r, hr, h1, h2, h3, ?_⟩
  intro i hi1 hi hik
  have hile : i ≤ r := h3 i hi (by rw [hik, compareBytes_self]; simp)
  rcases Nat.lt_or_ge i r with hlt | hge
  · exfalso
    have := hsort i r hi1 hlt h1
    rw [hik] at this
    exact h2 (compareBytes_gt_iff_lt.mpr this)
  · omega

/-- The concrete 2-entry leaf used by witnesses. -/
def leafW : BNode := leaf_a1.getD (zeros 0)

set_option maxRecDepth 10000 in
/-- Witness for C7 at the concrete leaf `("",""), ("a","1")` with queried
key `"a"`: the hypotheses hold and the returned index is 1 (the match,
not its successor). -/
theorem nodeLookUpLE_returns_largest_le_witness :
    1 ≤ nkeys leafW ∧
    ∃ r, nodeLookUpLE leafW [97] = some r ∧ r < nkeys leafW ∧
      compareBytes ((fun i => if i = 0 then [] else [97]) r) [97] ≠ .gt ∧
      (∀ j, j < nkeys leafW →
        compareBytes ((fun i => if i = 0 then [] else [97]) j) [97] ≠ .gt →
        j ≤ r) ∧
      (∀ i, 1 ≤ i → i < nkeys leafW →
        (fun i => if i = 0 then [] else [97]) i = [97] → r = i) := by
  have hnk : nkeys leafW = 2 := by decide
  refine ⟨by omega, ?_⟩
  apply nodeLookUpLE_returns_largest_le leafW [97]
    (fun i => if i = 0 then [] else [97])
  · omega
  · intro i hi
    rw [hnk] at hi
    interval_cases i <;> decide
  · intro i j hi hij hj
    rw [hnk] at hj
    omega
  · decide

set_option maxRecDepth 100000 in
/-- C1: refuted on the code.  After `Insert("a","1")`; `Insert("b","2")`
(both calls succeed), the key `"b"` — inserted and never deleted — is not
retrievable by the `lookup_le` descent: the traversal completes and
reports the key absent (`leafInsert` never writes the new entry), while
`"a"` is still present with value `"1"`. -/
theorem insert_then_second_key_not_retrievable :
    (runC1.bind fun s => treeGet s [98] 5) = some none ∧
    (runC1.bind fun s => treeGet s [97] 5) = some (some [49]) := by
  constructor <;> decide

set_option maxRecDepth 100000 in
/-- C2: refuted on the code.  `oldC2` is a node buffer with
`nbytes = 4248 > 4096` holding 3 entries (keys `""`, `"a"`, `"b"`);
`nodeSplit3` returns count 2, but both returned nodes are freshly
allocated zero pages with 0 entries — the entries of `old` are not
preserved (`nodeSplit2` is an empty stub and is not even called on this
path). -/
theorem nodeSplit3_loses_entries :
    nbytes oldC2 = some 4248 ∧ nkeys oldC2 = 3 ∧
    getKey oldC2 1 = some [97] ∧ getKey oldC2 2 = some [98] ∧
    (nodeSplit3 oldC2).map
        (fun r => (r.1, r.2.map fun (n : BNode) => (n.size, nkeys n))) =
      some (2, [(4096, 0), (4096, 0)]) := by
  refine ⟨by decide, by decide, by decide, by decide, by decide⟩

set_option maxRecDepth 100000 in
set_option synthInstance.maxSize 1000 in
/-- C3: refuted on the code.  On the 2-entry leaf `("","")`, `("a","1")`,
`leafInsert` at index 2 with `("b","2")` yields a leaf with 3 entries
whose first two entries are copied from the old leaf, but slot 2 holds
the pair `("","")` read from the untouched zero scratch bytes — not
`("b","2")`: the new entry is never written. -/
theorem leafInsert_never_writes_new_entry :
    (leaf_a1.bind fun o =>
      (leafInsert (zeros (2*BTREE_PAGE_SIZE)) o 2 [98] [50]).map fun r =>
        (nkeys r, getKey r 0, getKey r 1, getVal r 1, getKey r 2, getVal r 2)) =
    some (3, some [], some [97], some [49], some [], some []) := by decide

set_option maxRecDepth 100000 in
/-- C4: refuted on the code.  After the legal sequence `Insert("a","1")`;
`Insert("b","2")`, the root node (reachable from the root) has keys
`key(1) = "a"`, `key(2) = ""`, and `compareBytes "" "a" = lt`: the keys
are not strictly ascending from index 1 onward. -/
theorem root_keys_not_ascending_after_inserts :
    (runC1.bind fun s => (pageGet s s.root).map fun n =>
      (btype n, nkeys n, getKey n 1, getKey n 2)) =
      some (2, 3, some [97], some []) ∧
    compareBytes [] [97] = Ordering.lt := by
  exact ⟨by decide, by decide⟩

set_option maxRecDepth 100000 in
set_option synthInstance.maxSize 1000 in
/-- C6 counterexample: on the tree built by `Insert("k","v")` on the
empty tree — a sole root leaf holding the sentinel and exactly one user
key — `Delete("k")` returns `true` but does **not** set the root back
to 0: the new root is a freshly allocated leaf holding only the
sentinel entry. -/
theorem delete_sole_user_key_root_not_zero :
    (runC6.map fun r => (r.1, decide (r.2.root = 0),
      (pageGet r.2 r.2.root).map fun n => (btype n, nkeys n, getKey n 0))) =
    some (true, false, some (2, 1, some [])) := by decide

set_option maxRecDepth 100000 in
set_option synthInstance.maxSize 1000 in
/-- C8: refuted on the code.  `Insert("a","1")` then `Insert("","v")`
both succeed, but afterwards the root page has `btype = 0` (the empty
key matched the sentinel, taking the commented-out `leafUpdate` branch,
so the untouched zero scratch buffer became the root): retrieval of the
empty key panics (`none`) instead of returning `"v"`, and `Delete("")`
panics instead of returning `true`. -/
theorem empty_key_insert_corrupts_tree :
    (runC8.bind fun s => some (treeGet s [] 5, (Delete s [] 5).isSome,
      (pageGet s s.root).map fun n => (btype n, nkeys n))) =
    some (none, false, some (0, 0)) := by decide

/-! ## C5: the `Delete` not-found path -/

/-- The deletion recursion agrees with the retrieval traversal: a size-0
result means the traversal completes and reports the key absent, and the
state is returned untouched; a non-empty result means the traversal (if
it completes) finds the key. -/
theorem treeDelete_get (fuel : Nat) :
    ∀ (s : BTreeState) (node : BNode) (key : List Nat) (r : BNode)
      (s₁ : BTreeState),
    treeDelete s node key fuel = some (r, s₁) →
    (r.size = 0 → treeGetNode s key fuel node = some none ∧ s₁ = s) ∧
    (r.size ≠ 0 → ∀ g, treeGetNode s key fuel node = some g → g ≠ none) := by
  induction fuel with
  | zero => intro s node key r s₁ h; cases h
  | succ fuel ih =>
    intro s node key r s₁ h
    simp only [treeDelete] at h
    obtain ⟨idx, hidx, h⟩ := Option.bind_eq_some.mp h
    by_cases hbt : btype node = BNODE_LEAF
    · rw [if_pos hbt] at h
      obtain ⟨ki, hki, h⟩ := Option.bind_eq_some.mp h
      by_cases heq : key = ki
      · rw [if_pos heq] at h
        obtain ⟨ld, hld, h⟩ := Option.bind_eq_some.mp h
        have hsize : ld.size = 2*BTREE_PAGE_SIZE := leafDelete_size hld
        cases h
        constructor
        · intro hr0
          rw [hsize] at hr0
          exact absurd hr0 (by decide)
        · intro _ g hg
          simp only [treeGetNode] at hg
          obtain ⟨idx2, hidx2, hg⟩ := Option.bind_eq_some.mp hg
          rw [hidx] at hidx2
          cases hidx2
          rw [if_pos hbt] at hg
          obtain ⟨ki2, hki2, hg⟩ := Option.bind_eq_some.mp hg
          rw [hki] at hki2
          cases hki2
          rw [if_pos heq] at hg
          obtain ⟨v, _, hg⟩ := Option.bind_eq_some.mp hg
          cases hg
          simp
      · rw [if_neg heq] at h
        cases h
        refine ⟨fun _ => ⟨?_, rfl⟩, fun hr0 => absurd rfl hr0⟩
        simp only [treeGetNode]
        refine Option.bind_eq_some.mpr ⟨idx, hidx, ?_⟩
        rw [if_pos hbt]
        refine Option.bind_eq_some.mpr ⟨ki, hki, ?_⟩
        rw [if_neg heq]
    · by_cases hbt2 : btype node = BNODE_NODE
      · rw [if_neg hbt, if_pos hbt2] at h
        unfold nodeDelete at h
        obtain ⟨kptr, hk, h⟩ := Option.bind_eq_some.mp h
        obtain ⟨child, hc, h⟩ := Option.bind_eq_some.mp h
        obtain ⟨⟨upd, s1'⟩, hrec, h⟩ := Option.bind_eq_some.mp h
        dsimp only at h
        have IH := ih s child key upd s1' hrec
        by_cases hu : upd.size = 0
        · rw [if_pos hu] at h
          cases h
          obtain ⟨hgchild, hseq⟩ := IH.1 hu
          refine ⟨fun _ => ⟨?_, hseq⟩, fun hr0 => absurd rfl hr0⟩
          simp only [treeGetNode]
          refine Option.bind_eq_some.mpr ⟨idx, hidx, ?_⟩
          rw [if_neg hbt, if_pos hbt2]
          refine Option.bind_eq_some.mpr ⟨kptr, hk, ?_⟩
          refine Option.bind_eq_some.mpr ⟨child, hc, ?_⟩
          exact hgchild
        · rw [if_neg hu] at h
          obtain ⟨s2, _, h⟩ := Option.bind_eq_some.mp h
          obtain ⟨⟨dir, sib⟩, _, h⟩ := Option.bind_eq_some.mp h
          dsimp only at h
          have hrsize : r.size = BTREE_PAGE_SIZE := by
            split at h
            · obtain ⟨m, _, h⟩ := Option.bind_eq_some.mp h
              obtain ⟨p, _, h⟩ := Option.bind_eq_some.mp h
              obtain ⟨s3, _, h⟩ := Option.bind_eq_some.mp h
              obtain ⟨⟨mp, s4⟩, _, h⟩ := Option.bind_eq_some.mp h
              dsimp only at h
              obtain ⟨k0, _, h⟩ := Option.bind_eq_some.mp h
              obtain ⟨bb, hbb, h⟩ := Option.bind_eq_some.mp h
              cases h
              exact nodeReplace2Kid_size hbb
            · split at h
              · obtain ⟨m, _, h⟩ := Option.bind_eq_some.mp h
                obtain ⟨p, _, h⟩ := Option.bind_eq_some.mp h
                obtain ⟨s3, _, h⟩ := Option.bind_eq_some.mp h
                obtain ⟨⟨mp, s4⟩, _, h⟩ := Option.bind_eq_some.mp h
                dsimp only at h
                obtain ⟨k0, _, h⟩ := Option.bind_eq_some.mp h
                obtain ⟨bb, hbb, h⟩ := Option.bind_eq_some.mp h
                cases h
                exact nodeReplace2Kid_size hbb
              · split at h
                · split at h
                  · obtain ⟨bb, hbb, h⟩ := Option.bind_eq_some.mp h
                    cases h
                    exact setHeader_size hbb
                  · cases h
                · exact nodeReplaceKidN_size h
          constructor
          · intro hr0
            rw [hrsize] at hr0
            exact absurd hr0 (by decide)
          · intro _ g hg
            simp only [treeGetNode] at hg
            obtain ⟨idx2, hidx2, hg⟩ := Option.bind_eq_some.mp hg
            rw [hidx] at hidx2
            cases hidx2
            rw [if_neg hbt, if_pos hbt2] at hg
            obtain ⟨p2, hp2, hg⟩ := Option.bind_eq_some.mp hg
            rw [hk] at hp2
            cases hp2
            obtain ⟨ch2, hch2, hg⟩ := Option.bind_eq_some.mp hg
            rw [hc] at hch2
            cases hch2
            exact IH.2 hu g hg
      · rw [if_neg hbt, if_neg hbt2] at h
        cases h

/-! ## Read-after-write algebra for buffers -/

theorem wr8_data (b : BNode) (pos v p : Nat) :
    (wr8 b pos v).data p = if p = pos then v % 256 else b.data p := rfl

theorem wrLE_data_out (n : Nat) : ∀ (b : BNode) (pos v p : Nat),
    p < pos ∨ pos + n ≤ p → (wrLE b pos v n).data p = b.data p := by
  induction n with
  | zero => intro b pos v p _; rfl
  | succ n ih =>
    intro b pos v p hp
    simp only [wrLE]
    rw [ih _ _ _ _ (by omega), wr8_data, if_neg (by omega)]

theorem rd16_eq_of_data {b' b : BNode} {p q : Nat}
    (h0 : b'.data p = b.data q) (h1 : b'.data (p+1) = b.data (q+1)) :
    rd16 b' p = rd16 b q := by
  simp [rd16, rdLE, byteAt, h0, h1]

theorem rd16_wrLE2 (b : BNode) (pos v : Nat) :
    rd16 (wrLE b pos v 2) pos = v % 65536 := by
  have h0 : (wrLE b pos v 2).data pos = v % 256 := by
    simp only [wrLE, wr8_data]
    rw [if_neg (by omega)]
    simp
  have h1 : (wrLE b pos v 2).data (pos+1) = v / 256 % 256 := by
    simp only [wrLE, wr8_data]
    simp
  simp only [rd16, rdLE, byteAt, h0, h1]
  omega

theorem copyList_data_out (l : List Nat) : ∀ (b : BNode) (dpos p : Nat),
    p < dpos ∨ dpos + l.length ≤ p → (copyList b dpos l).data p = b.data p := by
  induction l with
  | nil => intro b dpos p _; rfl
  | cons v vs ih =>
    intro b dpos p hp
    simp only [copyList, List.length_cons] at hp ⊢
    rw [ih _ _ _ (by omega)]
    split
    · rw [wr8_data, if_neg (by omega)]
    · rfl

/-! ## Pure layout readers and the node well-formedness predicate -/

/-- The stored offset of entry `i` (0 at index 0), read directly. -/
def offT (node : BNode) (i : Nat) : Nat :=
  if i = 0 then 0 else rd16 node (HEADER + 8*nkeys node + 2*(i-1))

/-- The KV position of entry `i`, read directly. -/
def kvPosT (node : BNode) (i : Nat) : Nat :=
  HEADER + 8*nkeys node + 2*nkeys node + offT node i

/-- The stored key length of entry `i`. -/
def klenT (node : BNode) (i : Nat) : Nat := rd16 node (kvPosT node i)

/-- The stored value length of entry `i`. -/
def vlenT (node : BNode) (i : Nat) : Nat := rd16 node (kvPosT node i + 2)

/-- Well-formedness of a persisted leaf page (spec §3.2): leaf type, at
least one entry, exactly one page, total size within the page, and each
stored offset consistent with the joint length of the preceding entry. -/
def wfLeaf (node : BNode) : Prop :=
  btype node = BNODE_LEAF ∧
  1 ≤ nkeys node ∧
  node.size = BTREE_PAGE_SIZE ∧
  kvPosT node (nkeys node) ≤ BTREE_PAGE_SIZE ∧
  (∀ i, i < nkeys node →
    offT node (i+1) = offT node i + 4 + klenT node i + vlenT node i)

theorem rd16_lt (b : BNode) (pos : Nat) : rd16 b pos < 65536 := by
  have h0 : b.data pos % 256 < 256 := Nat.mod_lt _ (by omega)
  have h1 : b.data (pos+1) % 256 < 256 := Nat.mod_lt _ (by omega)
  simp only [rd16, rdLE, byteAt]
  omega

theorem wfLeaf_nkeys_le {node : BNode} (hwf : wfLeaf node) :
    nkeys node ≤ 409 := by
  obtain ⟨-, -, -, h4, -⟩ := hwf
  simp only [kvPosT, HEADER, BTREE_PAGE_SIZE] at h4
  omega

theorem wfLeaf_offT_mono {node : BNode} (hwf : wfLeaf node) :
    ∀ k i, i + k ≤ nkeys node → offT node i ≤ offT node (i + k) := by
  obtain ⟨-, -, -, -, h5⟩ := hwf
  intro k
  induction k with
  | zero => intro i _; simp
  | succ k ih =>
    intro i hik
    have h1 := ih i (by omega)
    have h2 := h5 (i + k) (by omega)
    have heq : offT node (i + (k+1)) = offT node (i + k + 1) := rfl
    omega

theorem wfLeaf_offT_le {node : BNode} (hwf : wfLeaf node) :
    ∀ {i j}, i ≤ j → j ≤ nkeys node → offT node i ≤ offT node j := by
  intro i j hij hj
  have := wfLeaf_offT_mono hwf (j - i) i (by omega)
  have heq : i + (j - i) = j := by omega
  rw [heq] at this
  exact this

theorem getOffset_eq_offT {node : BNode} (hwf : wfLeaf node) {i : Nat}
    (hi : i ≤ nkeys node) : getOffset node i = some (offT node i) := by
  obtain ⟨-, -, h3, h4, -⟩ := hwf
  have hcond : HEADER + 8*nkeys node + 2*(i-1) + 2 ≤ node.size := by
    rw [h3]
    simp only [kvPosT, HEADER, BTREE_PAGE_SIZE] at h4 ⊢
    omega
  unfold getOffset offT
  by_cases h0 : i = 0
  · rw [if_pos h0, if_pos h0]
  · rw [if_neg h0, if_neg h0]
    unfold offsetPos
    rw [if_pos ⟨by omega, hi⟩]
    refine Option.bind_eq_some.mpr ⟨_, rfl, ?_⟩
    rw [if_pos hcond]

theorem kvPos_eq_kvPosT {node : BNode} (hwf : wfLeaf node) {i : Nat}
    (hi : i ≤ nkeys node) : kvPos node i = some (kvPosT node i) := by
  unfold kvPos
  rw [if_pos hi, getOffset_eq_offT hwf hi]
  rfl

theorem wfLeaf_kvPosT_succ_le {node : BNode} (hwf : wfLeaf node) {i : Nat}
    (hi : i < nkeys node) :
    kvPosT node i + 4 + klenT node i + vlenT node i ≤ BTREE_PAGE_SIZE := by
  have h5 := hwf.2.2.2.2 i hi
  have hmono : offT node (i+1) ≤ offT node (nkeys node) :=
    wfLeaf_offT_le hwf (by omega) (Nat.le_refl _)
  have h4 := hwf.2.2.2.1
  simp only [kvPosT] at h4 ⊢
  omega

theorem getKey_ok {node : BNode} (hwf : wfLeaf node) {i : Nat}
    (hi : i < nkeys node) :
    getKey node i = some (readBytes node (kvPosT node i + 4) (klenT node i)) := by
  have hb := wfLeaf_kvPosT_succ_le hwf hi
  have h3 := hwf.2.2.1
  have hklen : rd16 node (kvPosT node i) = klenT node i := rfl
  unfold getKey
  rw [if_pos hi, kvPos_eq_kvPosT hwf (Nat.le_of_lt hi)]
  refine Option.bind_eq_some.mpr ⟨_, rfl, ?_⟩
  rw [if_pos (show kvPosT node i + 2 ≤ node.size by omega)]
  show (if kvPosT node i + 4 + rd16 node (kvPosT node i) ≤ node.size
      then some (readBytes node (kvPosT node i + 4)
        (rd16 node (kvPosT node i)))
      else none) = _
  rw [if_pos (show kvPosT node i + 4 + rd16 node (kvPosT node i) ≤ node.size
    by rw [hklen]; omega)]
  rfl

/-- On a well-formed leaf the lookup scan always returns an index below
`nkeys`. -/
theorem lookupAux_ok {node : BNode} (hwf : wfLeaf node) (key : List Nat) :
    ∀ (fuel i found : Nat), i + fuel = nkeys node → 1 ≤ i →
    found < nkeys node →
    ∃ r, lookupAux node key fuel i found = some r ∧ r < nkeys node := by
  intro fuel
  induction fuel with
  | zero => intro i found _ _ hf; exact ⟨found, rfl, hf⟩
  | succ fuel ih =>
    intro i found hfi hi1 hf
    have hi : i < nkeys node := by omega
    have hkey := getKey_ok hwf hi
    have hstep : lookupAux node key (fuel+1) i found =
        (match compareBytes (readBytes node (kvPosT node i + 4)
            (klenT node i)) key with
         | .lt => lookupAux node key fuel (i+1) i
         | .eq => some i
         | .gt => some found) := by
      simp only [lookupAux]
      rw [hkey]
      rfl
    cases hcmp : compareBytes (readBytes node (kvPosT node i + 4)
        (klenT node i)) key with
    | lt =>
      rw [hcmp] at hstep
      obtain ⟨r, hr, hrn⟩ := ih (i+1) i (by omega) (by omega) hi
      exact ⟨r, by rw [hstep, hr], hrn⟩
    | eq =>
      rw [hcmp] at hstep
      exact ⟨i, hstep, hi⟩
    | gt =>
      rw [hcmp] at hstep
      exact ⟨found, hstep, hf⟩

theorem nodeLookUpLE_ok {node : BNode} (hwf : wfLeaf node)
    (key : List Nat) :
    ∃ r, nodeLookUpLE node key = some r ∧ r < nkeys node := by
  unfold nodeLookUpLE
  exact lookupAux_ok hwf key (nkeys node - 1) 1 0 (by
    have := hwf.2.1
    omega) (by omega) (by have := hwf.2.1; omega)

/-- The pointer-copying loop succeeds under the index preconditions and
touches only the pointer slots `[dst+i, dst+i+rem)`. -/
theorem ptrCopyAux_ok (old : BNode) (src dst N : Nat)
    (holdsz : 4 + 10 * nkeys old ≤ old.size) :
    ∀ (rem i : Nat) (b : BNode), nkeys b = N → 4 + 10*N ≤ b.size →
    dst + i + rem ≤ N → src + i + rem ≤ nkeys old →
    ∃ b', ptrCopyAux old src dst i rem b = some b' ∧ b'.size = b.size ∧
      nkeys b' = N ∧
      ∀ p, p < HEADER + 8*(dst+i) ∨ HEADER + 8*(dst+i+rem) ≤ p →
        b'.data p = b.data p := by
  intro rem
  induction rem with
  | zero => intro i b hN _ _ _; exact ⟨b, rfl, rfl, hN, fun p _ => rfl⟩
  | succ rem ih =>
    intro i b hN hS hdst hsrc
    have hgp : getPtr old (src+i) = some (rd64 old (HEADER + 8*(src+i))) := by
      unfold getPtr
      rw [if_pos (by omega), if_pos (by simp only [HEADER] at *; omega)]
    have hsp : setPtr b (dst+i) (rd64 old (HEADER + 8*(src+i))) =
        some (wrLE b (HEADER + 8*(dst+i))
          (rd64 old (HEADER + 8*(src+i))) 8) := by
      unfold setPtr wr64
      rw [if_pos (by omega), if_pos (by simp only [HEADER] at *; omega)]
    have hb2N : nkeys (wrLE b (HEADER + 8*(dst+i))
        (rd64 old (HEADER + 8*(src+i))) 8) = N := by
      rw [← hN]
      exact rd16_eq_of_data
        (wrLE_data_out 8 _ _ _ _ (by simp only [HEADER]; omega))
        (wrLE_data_out 8 _ _ _ _ (by simp only [HEADER]; omega))
    obtain ⟨b', hb', hS', hN', hf'⟩ := ih (i+1)
      (wrLE b (HEADER + 8*(dst+i)) (rd64 old (HEADER + 8*(src+i))) 8)
      hb2N (by rw [wrLE_size]; exact hS) (by omega) (by omega)
    refine ⟨b', ?_, by rw [hS', wrLE_size], hN', ?_⟩
    · simp only [ptrCopyAux]
      refine Option.bind_eq_some.mpr ⟨_, hgp, ?_⟩
      refine Option.bind_eq_some.mpr ⟨_, hsp, ?_⟩
      exact hb'
    · intro p hp
      rw [hf' p (by simp only [HEADER] at *; omega)]
      exact wrLE_data_out 8 _ _ _ _ (by simp only [HEADER] at *; omega)

/-- The offset-rebasing loop succeeds under the index preconditions and
touches only the offset slots `[dst+i, dst+i+rem)`. -/
theorem offCopyAux_ok (old : BNode) (src dst dstBegin srcBegin N : Nat)
    (hwfold : wfLeaf old) :
    ∀ (rem i : Nat) (b : BNode), nkeys b = N → 4 + 10*N ≤ b.size → 1 ≤ i →
    dst + i + rem ≤ N + 1 → src + i + rem ≤ nkeys old + 1 →
    ∃ b', offCopyAux old src dst dstBegin srcBegin i rem b = some b' ∧
      b'.size = b.size ∧ nkeys b' = N ∧
      ∀ p, p < HEADER + 8*N + 2*(dst+i-1) ∨
        HEADER + 8*N + 2*(dst+i+rem-1) ≤ p →
        b'.data p = b.data p := by
  have holdsz : 4 + 10 * nkeys old ≤ old.size := by
    have h3 := hwfold.2.2.1
    have h4 := hwfold.2.2.2.1
    simp only [kvPosT, HEADER, BTREE_PAGE_SIZE] at h4
    rw [h3]
    simp only [BTREE_PAGE_SIZE]
    omega
  intro rem
  induction rem with
  | zero => intro i b hN _ _ _ _; exact ⟨b, rfl, rfl, hN, fun p _ => rfl⟩
  | succ rem ih =>
    intro i b hN hS hi1 hdst hsrc
    have hgo : getOffset old (src+i) = some (offT old (src+i)) :=
      getOffset_eq_offT hwfold (by omega)
    have hso : setOffset b (dst+i)
        (dstBegin + sub16 (offT old (src+i)) srcBegin) =
        some (wrLE b (HEADER + 8*N + 2*(dst+i-1))
          (dstBegin + sub16 (offT old (src+i)) srcBegin) 2) := by
      unfold setOffset offsetPos
      rw [if_pos ⟨by omega, by rw [hN]; omega⟩]
      refine Option.bind_eq_some.mpr ⟨_, rfl, ?_⟩
      unfold wr16
      rw [hN, if_pos (by simp only [HEADER] at *; omega)]
    have hb2N : nkeys (wrLE b (HEADER + 8*N + 2*(dst+i-1))
        (dstBegin + sub16 (offT old (src+i)) srcBegin) 2) = N := by
      rw [← hN]
      exact rd16_eq_of_data
        (wrLE_data_out 2 _ _ _ _ (by simp only [HEADER]; omega))
        (wrLE_data_out 2 _ _ _ _ (by simp only [HEADER]; omega))
    obtain ⟨b', hb', hS', hN', hf'⟩ := ih (i+1)
      (wrLE b (HEADER + 8*N + 2*(dst+i-1))
        (dstBegin + sub16 (offT old (src+i)) srcBegin) 2)
      hb2N (by rw [wrLE_size]; exact hS) (by omega) (by omega) (by omega)
    refine ⟨b', ?_, by rw [hS', wrLE_size], hN', ?_⟩
    · simp only [offCopyAux]
      refine Option.bind_eq_some.mpr ⟨_, hgo, ?_⟩
      refine Option.bind_eq_some.mpr ⟨_, hso, ?_⟩
      exact hb'
    · intro p hp
      rw [hf' p (by simp only [HEADER] at *; omega)]
      exact wrLE_data_out 2 _ _ _ _ (by simp only [HEADER] at *; omega)

/-- `nodeAppendRange` succeeds on a well-formed old leaf provided the
index preconditions hold and the destination offset slot (read before
the loops) carries a value `d` that keeps the KV copy inside the
buffer; only pointer slots `[dst, dst+n)`, offset slots `[dst, dst+n)`
and the KV region from `HEADER + 10*nkeys new + d` on are written. -/
theorem nodeAppendRange_ok (new old : BNode) (dst src n d : Nat)
    (hwfold : wfLeaf old)
    (hsrc : src + n ≤ nkeys old) (hdst : dst + n ≤ nkeys new)
    (hnewsz : 4 + 10 * nkeys new ≤ new.size)
    (hd : (dst = 0 ∧ d = 0) ∨
      (1 ≤ dst ∧ rd16 new (HEADER + 8*nkeys new + 2*(dst-1)) = d))
    (hdbound : HEADER + 10*nkeys new + d ≤ new.size) :
    ∃ b', nodeAppendRange new old dst src n = some b' ∧
      b'.size = new.size ∧ nkeys b' = nkeys new ∧
      ∀ p, p < HEADER + 10*nkeys new →
        (p < HEADER + 8*dst ∨
          (HEADER + 8*(dst+n) ≤ p ∧ p < HEADER + 8*nkeys new + 2*dst) ∨
          HEADER + 8*nkeys new + 2*(dst+n) ≤ p) →
        b'.data p = new.data p := by
  have holdsz : 4 + 10 * nkeys old ≤ old.size := by
    have h3 := hwfold.2.2.1
    have h4 := hwfold.2.2.2.1
    simp only [kvPosT, HEADER, BTREE_PAGE_SIZE] at h4
    rw [h3]
    simp only [BTREE_PAGE_SIZE]
    omega
  unfold nodeAppendRange
  rw [if_pos hsrc, if_pos hdst]
  by_cases hn : n = 0
  · rw [if_pos hn]
    exact ⟨new, rfl, rfl, rfl, fun p _ _ => rfl⟩
  rw [if_neg hn]
  obtain ⟨b₁, hb₁, hS₁, hN₁, hf₁⟩ := ptrCopyAux_ok old src dst (nkeys new)
    holdsz n 0 new rfl hnewsz (by omega) (by omega)
  -- the destination-offset read after the pointer loop
  have hdb1 : ∀ b₂ : BNode, nkeys b₂ = nkeys new → b₂.size = new.size →
      (∀ p, p < HEADER + 8*nkeys new + 2*dst →
        (p < HEADER + 8*dst ∨ HEADER + 8*(dst+n) ≤ p) →
        b₂.data p = new.data p) →
      getOffset b₂ dst = some d := by
    intro b₂ hN₂ hS₂ hpre
    rcases hd with ⟨h0, hd0⟩ | ⟨h1, hval⟩
    · subst h0; subst hd0
      rfl
    · unfold getOffset offsetPos
      rw [if_neg (by omega), if_pos ⟨h1, by rw [hN₂]; omega⟩]
      refine Option.bind_eq_some.mpr ⟨_, rfl, ?_⟩
      rw [hN₂, if_pos (by rw [hS₂]; simp only [HEADER] at *; omega)]
      refine congrArg some (Eq.trans ?_ hval)
      exact rd16_eq_of_data
        (hpre _ (by simp only [HEADER] at *; omega)
          (by simp only [HEADER] at *; omega))
        (hpre _ (by simp only [HEADER] at *; omega)
          (by simp only [HEADER] at *; omega))
  have hdb : getOffset b₁ dst = some d := by
    refine hdb1 b₁ hN₁ hS₁ ?_
    intro p _ hp
    exact hf₁ p (by simp only [HEADER] at *; omega)
  have hsb : getOffset old src = some (offT old src) :=
    getOffset_eq_offT hwfold (by omega)
  obtain ⟨b₂, hb₂, hS₂, hN₂, hf₂⟩ := offCopyAux_ok old src dst d
    (offT old src) (nkeys new) hwfold n 1 b₁ hN₁
    (by rw [hS₁]; exact hnewsz) (by omega) (by omega) (by omega)
  have hbpos : kvPos old src = some (kvPosT old src) :=
    kvPos_eq_kvPosT hwfold (by omega)
  have hepos : kvPos old (src + n) = some (kvPosT old (src + n)) :=
    kvPos_eq_kvPosT hwfold (by omega)
  have hdb2 : getOffset b₂ dst = some d := by
    refine hdb1 b₂ (by rw [hN₂]) (by rw [hS₂, hS₁]) ?_
    intro p hplow hp
    rw [hf₂ p (by simp only [HEADER] at *; omega)]
    exact hf₁ p (by simp only [HEADER] at *; omega)
  have hdpos : kvPos b₂ dst = some (HEADER + 10*nkeys new + d) := by
    unfold kvPos
    rw [if_pos (by rw [hN₂]; omega), hdb2]
    refine Option.bind_eq_some.mpr ⟨_, rfl, ?_⟩
    rw [hN₂]
    refine congrArg some (by simp only [HEADER]; ring)
  have hmono : offT old src ≤ offT old (src + n) :=
    wfLeaf_offT_le hwfold (by omega) (by omega)
  have hend : kvPosT old (src + n) ≤ old.size := by
    have := wfLeaf_offT_le hwfold (show src + n ≤ nkeys old from hsrc)
      (Nat.le_refl _)
    have h3 := hwfold.2.2.1
    have h4 := hwfold.2.2.2.1
    simp only [kvPosT] at *
    omega
  refine ⟨copyList b₂ (HEADER + 10*nkeys new + d)
      (readBytes old (kvPosT old src)
        (kvPosT old (src + n) - kvPosT old src)), ?_, ?_, ?_, ?_⟩
  · refine Option.bind_eq_some.mpr ⟨_, hb₁, ?_⟩
    refine Option.bind_eq_some.mpr ⟨_, hdb, ?_⟩
    refine Option.bind_eq_some.mpr ⟨_, hsb, ?_⟩
    refine Option.bind_eq_some.mpr ⟨_, hb₂, ?_⟩
    refine Option.bind_eq_some.mpr ⟨_, hbpos, ?_⟩
    refine Option.bind_eq_some.mpr ⟨_, hepos, ?_⟩
    refine Option.bind_eq_some.mpr ⟨_, hdpos, ?_⟩
    rw [if_pos]
    constructor
    · simp only [kvPosT]
      omega
    constructor
    · exact hend
    · rw [hS₂, hS₁]
      exact hdbound
  · rw [copyList_size, hS₂, hS₁]
  · rw [← hN₂]
    refine rd16_eq_of_data ?_ ?_ <;>
      exact copyList_data_out _ _ _ _ (by simp only [HEADER]; omega)
  · intro p hplow hp
    rw [copyList_data_out _ _ _ _ (by omega)]
    rw [hf₂ p (by simp only [HEADER] at *; omega)]
    exact hf₁ p (by simp only [HEADER] at *; omega)

theorem sub16_small {a b : Nat} (hba : b ≤ a) (ha : a < 65536) :
    sub16 a b = a - b := by
  unfold sub16
  omega

/-- On a well-formed leaf, `leafInsert` into the double-page scratch
buffer runs to completion: every write lands inside the buffer and every
index assertion holds. -/
theorem leafInsert_ok (old : BNode) (idx : Nat) (key val : List Nat)
    (hwf : wfLeaf old) (hidx : idx ≤ nkeys old) :
    ∃ b', leafInsert (zeros (2*BTREE_PAGE_SIZE)) old idx key val = some b' := by
  have hK : nkeys old ≤ 409 := wfLeaf_nkeys_le hwf
  have hsh : setHeader (zeros (2*BTREE_PAGE_SIZE)) BNODE_LEAF
      (nkeys old + 1) =
      some (wrLE (wrLE (zeros (2*BTREE_PAGE_SIZE)) 0 BNODE_LEAF 2) 2
        (nkeys old + 1) 2) := by
    unfold setHeader
    refine Option.bind_eq_some.mpr
      ⟨wrLE (zeros (2*BTREE_PAGE_SIZE)) 0 BNODE_LEAF 2, ?_, ?_⟩
    · unfold wr16
      rw [if_pos (by decide)]
    · unfold wr16
      rw [if_pos (by rw [wrLE_size]; decide)]
  have hb₀N : nkeys (wrLE (wrLE (zeros (2*BTREE_PAGE_SIZE)) 0 BNODE_LEAF 2)
      2 (nkeys old + 1) 2) = nkeys old + 1 := by
    have h : nkeys (wrLE (wrLE (zeros (2*BTREE_PAGE_SIZE)) 0 BNODE_LEAF 2)
        2 (nkeys old + 1) 2) = (nkeys old + 1) % 65536 :=
      rd16_wrLE2 (wrLE (zeros (2*BTREE_PAGE_SIZE)) 0 BNODE_LEAF 2) 2
        (nkeys old + 1)
    omega
  have hb₀S : (wrLE (wrLE (zeros (2*BTREE_PAGE_SIZE)) 0 BNODE_LEAF 2) 2
      (nkeys old + 1) 2).size = 2*BTREE_PAGE_SIZE := by
    rw [wrLE_size, wrLE_size]
    rfl
  obtain ⟨b₁, hb₁, hS₁, hN₁, hf₁⟩ := nodeAppendRange_ok
    (wrLE (wrLE (zeros (2*BTREE_PAGE_SIZE)) 0 BNODE_LEAF 2) 2
      (nkeys old + 1) 2) old 0 0 idx 0 hwf
    (by omega) (by rw [hb₀N]; omega)
    (by rw [hb₀N, hb₀S]; simp only [BTREE_PAGE_SIZE]; omega)
    (Or.inl ⟨rfl, rfl⟩)
    (by rw [hb₀N, hb₀S]; simp only [HEADER, BTREE_PAGE_SIZE]; omega)
  rw [hb₀N] at hf₁
  rw [hb₀N] at hN₁
  have hq0 : b₁.data (HEADER + 8*(nkeys old + 1) + 2*idx) = 0 := by
    rw [hf₁ _ (by simp only [HEADER]; omega)
        (by simp only [HEADER]; omega)]
    rw [wrLE_data_out 2 _ _ _ _ (by simp only [HEADER, BNODE_LEAF]; omega),
      wrLE_data_out 2 _ _ _ _ (by simp only [HEADER, BNODE_LEAF]; omega)]
    rfl
  have hq1 : b₁.data (HEADER + 8*(nkeys old + 1) + 2*idx + 1) = 0 := by
    rw [hf₁ _ (by simp only [HEADER]; omega)
        (by simp only [HEADER]; omega)]
    rw [wrLE_data_out 2 _ _ _ _ (by simp only [HEADER, BNODE_LEAF]; omega),
      wrLE_data_out 2 _ _ _ _ (by simp only [HEADER, BNODE_LEAF]; omega)]
    rfl
  have hq : rd16 b₁ (HEADER + 8*(nkeys old + 1) + 2*idx) = 0 := by
    simp [rd16, rdLE, byteAt, hq0, hq1]
  have hsub : sub16 (nkeys old) idx = nkeys old - idx :=
    sub16_small hidx (by omega)
  obtain ⟨b₂, hb₂, _, _, _⟩ := nodeAppendRange_ok b₁ old (idx+1) idx
    (nkeys old - idx) 0 hwf
    (by omega) (by rw [hN₁]; omega)
    (by rw [hN₁, hS₁, hb₀S]; simp only [BTREE_PAGE_SIZE]; omega)
    (Or.inr ⟨by omega, by rw [hN₁]; exact hq⟩)
    (by rw [hN₁, hS₁, hb₀S]; simp only [HEADER, BTREE_PAGE_SIZE]; omega)
  refine ⟨b₂, ?_⟩
  unfold leafInsert
  refine Option.bind_eq_some.mpr ⟨_, hsh, ?_⟩
  refine Option.bind_eq_some.mpr ⟨_, hb₁, ?_⟩
  rw [hsub]
  exact hb₂

/-- C10: confirmed.  For every well-formed leaf page `node`
(`nbytes ≤ 4096`, consistent offsets) and every key within 1000 bytes
and value within 3000 bytes, the leaf path of `treeInsert` (both the
not-found branch through `leafInsert` and the silently-empty update
branch) runs to completion: in this model every byte write into the
`2*4096`-byte scratch buffer is bounds-checked and every accessor
index-precondition assertion is checked, and `none` would be returned
if any of them failed.  (`nodeAppendKV` performs no write on this path:
the source never calls it from `leafInsert`.) -/
theorem treeInsert_leaf_path_safe (s : BTreeState) (node : BNode)
    (key val : List Nat) (fuel : Nat) (hwf : wfLeaf node)
    (hk : key.length ≤ BTREE_MAX_KEY_SIZE)
    (hv : val.length ≤ BTREE_MAX_VAL_SIZE) :
    (treeInsert s node key val (fuel+1)).isSome = true := by
  obtain ⟨idx, hidx, hlt⟩ := nodeLookUpLE_ok hwf key
  have hkey := getKey_ok hwf hlt
  obtain ⟨b', hb'⟩ := leafInsert_ok node (idx+1) key val hwf (by omega)
  suffices h : ∃ r, treeInsert s node key val (fuel+1) = some r by
    obtain ⟨r, hr⟩ := h
    rw [hr]
    rfl
  simp only [treeInsert]
  by_cases heq : key = readBytes node (kvPosT node idx + 4) (klenT node idx)
  · refine ⟨(zeros (2*BTREE_PAGE_SIZE), s),
      Option.bind_eq_some.mpr ⟨idx, hidx, ?_⟩⟩
    rw [if_pos hwf.1]
    refine Option.bind_eq_some.mpr ⟨_, hkey, ?_⟩
    rw [if_pos heq]
  · refine ⟨(b', s), Option.bind_eq_some.mpr ⟨idx, hidx, ?_⟩⟩
    rw [if_pos hwf.1]
    refine Option.bind_eq_some.mpr ⟨_, hkey, ?_⟩
    rw [if_neg heq]
    exact Option.bind_eq_some.mpr ⟨b', hb', rfl⟩

set_option maxRecDepth 10000 in
/-- Witness for C10 at the concrete well-formed leaf
`("",""), ("a","1")` with inserted pair `("b","2")`. -/
theorem treeInsert_leaf_path_safe_witness :
    wfLeaf leafW ∧ [98].length ≤ BTREE_MAX_KEY_SIZE ∧
    [50].length ≤ BTREE_MAX_VAL_SIZE ∧
    (treeInsert s0 leafW [98] [50] 1).isSome = true := by
  have hwf : wfLeaf leafW := by
    refine ⟨by decide, by decide, by decide, by decide, ?_⟩
    intro i hi
    have h2 : nkeys leafW = 2 := by decide
    rw [h2] at hi
    interval_cases i <;> decide
  exact ⟨hwf, by decide, by decide,
    treeInsert_leaf_path_safe s0 leafW [98] [50] 0 hwf (by decide)
      (by decide)⟩

theorem copyList_data_in (l : List Nat) : ∀ (b : BNode) (dpos j : Nat),
    j < l.length → dpos + j < b.size →
    (copyList b dpos l).data (dpos + j) = l.getD j 0 % 256 := by
  induction l with
  | nil => intro b dpos j hj _; simp at hj
  | cons v vs ih =>
    intro b dpos j hj hsz
    cases j with
    | zero =>
      simp only [Nat.add_zero] at hsz ⊢
      simp only [copyList]
      rw [if_pos hsz]
      rw [copyList_data_out vs _ _ _ (by omega)]
      rw [wr8_data, if_pos rfl]
      simp [List.getD]
    | succ j =>
      simp only [copyList]
      have harr : dpos + (j+1) = (dpos + 1) + j := by omega
      have hsz' : (if dpos < b.size then wr8 b dpos v else b).size = b.size := by
        split <;> rfl
      rw [harr, ih _ (dpos+1) j (by simpa using hj) (by rw [hsz']; omega)]
      simp [List.getD]

/-! ## C6: deleting the sole user key of a root leaf -/

/-- The scratch buffer of `leafDelete` after `setHeader(LEAF, 2-1)`. -/
def delScratch0 : BNode :=
  wrLE (wrLE (zeros (2*BTREE_PAGE_SIZE)) 0 BNODE_LEAF 2) 2 (sub16 2 1) 2

/-- ... after the pointer-copy loop (entry 0 of the old leaf). -/
def delScratch1 (node : BNode) : BNode :=
  wrLE delScratch0 4 (rd64 node 4) 8

/-- ... after the offset-rebasing loop (offset slot 1 gets value 4). -/
def delScratch2 (node : BNode) : BNode :=
  wrLE (delScratch1 node) 12 (0 + sub16 4 0) 2

/-- ... after the KV byte copy of the sentinel entry. -/
def delScratch3 (node : BNode) : BNode :=
  copyList (delScratch2 node) 14 (readBytes node 24 4)

theorem delScratch1_nkeys (node : BNode) : nkeys (delScratch1 node) = 1 := by
  have h : nkeys (delScratch1 node) = nkeys delScratch0 :=
    rd16_eq_of_data (wrLE_data_out 8 _ _ _ _ (by omega))
      (wrLE_data_out 8 _ _ _ _ (by omega))
  rw [h]
  decide

theorem delScratch2_nkeys (node : BNode) : nkeys (delScratch2 node) = 1 := by
  have h : nkeys (delScratch2 node) = nkeys (delScratch1 node) :=
    rd16_eq_of_data (wrLE_data_out 2 _ _ _ _ (by omega))
      (wrLE_data_out 2 _ _ _ _ (by omega))
  rw [h, delScratch1_nkeys]

theorem delScratch3_nkeys (node : BNode) : nkeys (delScratch3 node) = 1 := by
  have h : nkeys (delScratch3 node) = nkeys (delScratch2 node) :=
    rd16_eq_of_data (copyList_data_out _ _ _ _ (by omega))
      (copyList_data_out _ _ _ _ (by omega))
  rw [h, delScratch2_nkeys]

theorem delScratch3_btype (node : BNode) :
    btype (delScratch3 node) = BNODE_LEAF := by
  have h3 : btype (delScratch3 node) = btype (delScratch2 node) :=
    rd16_eq_of_data (copyList_data_out _ _ _ _ (by omega))
      (copyList_data_out _ _ _ _ (by omega))
  have h2 : btype (delScratch2 node) = btype (delScratch1 node) :=
    rd16_eq_of_data (wrLE_data_out 2 _ _ _ _ (by omega))
      (wrLE_data_out 2 _ _ _ _ (by omega))
  have h1 : btype (delScratch1 node) = btype delScratch0 :=
    rd16_eq_of_data (wrLE_data_out 8 _ _ _ _ (by omega))
      (wrLE_data_out 8 _ _ _ _ (by omega))
  rw [h3, h2, h1]
  decide

theorem delScratch1_size (node : BNode) :
    (delScratch1 node).size = 2*BTREE_PAGE_SIZE := by
  unfold delScratch1 delScratch0
  rw [wrLE_size, wrLE_size, wrLE_size]
  rfl

theorem delScratch2_size (node : BNode) :
    (delScratch2 node).size = 2*BTREE_PAGE_SIZE := by
  unfold delScratch2
  rw [wrLE_size, delScratch1_size]

theorem delScratch3_size (node : BNode) :
    (delScratch3 node).size = 2*BTREE_PAGE_SIZE := by
  unfold delScratch3
  rw [copyList_size, delScratch2_size]

theorem delScratch3_off1 (node : BNode) : rd16 (delScratch3 node) 12 = 4 := by
  have h3 : rd16 (delScratch3 node) 12 = rd16 (delScratch2 node) 12 :=
    rd16_eq_of_data (copyList_data_out _ _ _ _ (by omega))
      (copyList_data_out _ _ _ _ (by omega))
  rw [h3]
  unfold delScratch2
  rw [rd16_wrLE2]
  decide

theorem delScratch3_nbytes (node : BNode) :
    nbytes (delScratch3 node) = some 18 := by
  have hoff1 : getOffset (delScratch3 node) 1 = some 4 := by
    unfold getOffset offsetPos
    rw [if_neg (by omega), delScratch3_nkeys, if_pos (by omega)]
    refine Option.bind_eq_some.mpr ⟨_, rfl, ?_⟩
    rw [if_pos (by rw [delScratch3_size]; decide)]
    rw [show HEADER + 8*1 + 2*(1-1) = 12 from rfl, delScratch3_off1]
  unfold nbytes kvPos
  rw [delScratch3_nkeys, if_pos (by omega), hoff1]
  rfl

theorem delScratch3_kvpos0 (node : BNode) :
    kvPos (delScratch3 node) 0 = some 14 := by
  unfold kvPos
  rw [delScratch3_nkeys, if_pos (by omega)]
  refine Option.bind_eq_some.mpr ⟨0, rfl, rfl⟩

/-- A concrete 2-entry root leaf — sentinel `("","")` at slot 0 and
`("k","v")` at slot 1 — given directly by its byte formula: header
`(2, 2)`, stored offsets 4 and 8, entry 0 at 24 (`klen = vlen = 0`),
entry 1 at 28 (`klen = vlen = 1`, bytes `0x6b 0x76`). -/
def dataC6 : Nat → Nat := fun p =>
  if p = 0 then 2 else if p = 2 then 2
  else if p = 20 then 4 else if p = 22 then 8
  else if p = 28 then 1 else if p = 30 then 1
  else if p = 32 then 107 else if p = 33 then 118
  else 0

/-- The concrete root leaf as a full page. -/
def leafC6 : BNode := ⟨BTREE_PAGE_SIZE, dataC6⟩

/-- A tree whose sole page is `leafC6`, mounted as the root at id 1. -/
def sC6 : BTreeState :=
  ⟨1, fun p => if p = 1 then some leafC6 else none, 2, 0, 0⟩

set_option maxRecDepth 100000 in
/-- C6 amended: for every tree whose root page is the sole leaf holding
the sentinel `("","")` at slot 0 and exactly one user entry `(k, v)` at
slot 1, `Delete k` returns `true` but does **not** set the root to 0:
the new root is a freshly allocated nonzero page holding a 1-entry leaf
whose only entry is the sentinel (the root only returns to 0 when a
deletion empties the leaf completely). -/
theorem delete_sole_user_key_keeps_sentinel_root (s : BTreeState)
    (node : BNode) (k : List Nat)
    (hroot : s.root ≠ 0)
    (hpage : s.pages s.root = some node)
    (hbt : btype node = BNODE_LEAF)
    (hn : nkeys node = 2)
    (hsz : node.size = BTREE_PAGE_SIZE)
    (hk0 : getKey node 0 = some [])
    (hoff : getOffset node 1 = some 4)
    (hk1 : getKey node 1 = some k)
    (hfresh : s.pages s.nextId = none)
    (hnz : s.nextId ≠ 0) :
    ∃ s', Delete s k 1 = some (true, s') ∧ s'.root ≠ 0 ∧
      ∃ leaf1, s'.pages s'.root = some leaf1 ∧
        btype leaf1 = BNODE_LEAF ∧ nkeys leaf1 = 1 ∧
        getKey leaf1 0 = some [] := by
  -- the sentinel key-length field of the old leaf is zero
  have hkv0 : kvPos node 0 = some 24 := by
    unfold kvPos
    rw [if_pos (by omega)]
    refine Option.bind_eq_some.mpr ⟨0, rfl, ?_⟩
    rw [hn]
    rfl
  have h24 : rd16 node 24 = 0 := by
    unfold getKey at hk0
    rw [if_pos (by rw [hn]; omega), hkv0] at hk0
    obtain ⟨pos, hpos, hk0⟩ := Option.bind_eq_some.mp hk0
    cases hpos
    rw [if_pos (by rw [hsz]; decide)] at hk0
    have hk0z : (if 24 + 4 + rd16 node 24 ≤ node.size
        then some (readBytes node (24+4) (rd16 node 24))
        else none) = some [] := hk0
    split at hk0z
    · have := congrArg List.length (Option.some.inj hk0z)
      simpa [readBytes] using this
    · cases hk0z
  have hb24 : byteAt node 24 = 0 ∧ byteAt node 25 = 0 := by
    have : rd16 node 24 = byteAt node 24 + 256*(byteAt node 25 + 256*0) :=
      rfl
    omega
  -- the lookup finds index 1
  have hlook : nodeLookUpLE node k = some 1 := by
    unfold nodeLookUpLE
    rw [hn]
    show lookupAux node k 1 1 0 = some 1
    simp only [lookupAux]
    rw [hk1]
    show (match compareBytes k k with
          | .lt => lookupAux node k 0 2 1
          | .eq => some 1
          | .gt => some 0) = some 1
    rw [compareBytes_self]
  -- the pointer-copy loop
  have hptr : getPtr node 0 = some (rd64 node 4) := by
    unfold getPtr
    rw [if_pos (by omega), if_pos (by rw [hsz]; decide)]
    rfl
  have hsetp : setPtr delScratch0 0 (rd64 node 4) =
      some (delScratch1 node) := by
    unfold setPtr wr64
    rw [if_pos (by decide), if_pos (by decide)]
    rfl
  have hploop : ptrCopyAux node 0 0 0 1 delScratch0 =
      some (delScratch1 node) := by
    simp only [ptrCopyAux]
    refine Option.bind_eq_some.mpr ⟨_, hptr, ?_⟩
    refine Option.bind_eq_some.mpr ⟨_, hsetp, ?_⟩
    rfl
  -- the offset loop
  have hseto : setOffset (delScratch1 node) 1 (0 + sub16 4 0) =
      some (delScratch2 node) := by
    unfold setOffset offsetPos
    rw [delScratch1_nkeys, if_pos (by omega)]
    refine Option.bind_eq_some.mpr ⟨_, rfl, ?_⟩
    unfold wr16
    rw [if_pos (by rw [delScratch1_size]; decide)]
    rfl
  have holoop : offCopyAux node 0 0 0 0 1 1 (delScratch1 node) =
      some (delScratch2 node) := by
    simp only [offCopyAux]
    refine Option.bind_eq_some.mpr ⟨4, hoff, ?_⟩
    refine Option.bind_eq_some.mpr ⟨_, hseto, ?_⟩
    rfl
  -- the KV copy bounds
  have hkv1 : kvPos node 1 = some 28 := by
    unfold kvPos
    rw [if_pos (by omega), hoff]
    refine Option.bind_eq_some.mpr ⟨4, rfl, ?_⟩
    rw [hn]
    rfl
  have hkvd : kvPos (delScratch2 node) 0 = some 14 := by
    unfold kvPos
    rw [delScratch2_nkeys, if_pos (by omega)]
    refine Option.bind_eq_some.mpr ⟨0, rfl, rfl⟩
  -- range 1 of leafDelete copies the sentinel entry
  have hrange1 : nodeAppendRange delScratch0 node 0 0 1 =
      some (delScratch3 node) := by
    unfold nodeAppendRange
    rw [if_pos (by rw [hn]; omega), if_pos (by decide),
      if_neg (by omega)]
    refine Option.bind_eq_some.mpr ⟨_, hploop, ?_⟩
    refine Option.bind_eq_some.mpr ⟨0, rfl, ?_⟩
    refine Option.bind_eq_some.mpr ⟨0, rfl, ?_⟩
    refine Option.bind_eq_some.mpr ⟨_, holoop, ?_⟩
    refine Option.bind_eq_some.mpr ⟨24, hkv0, ?_⟩
    refine Option.bind_eq_some.mpr ⟨28, hkv1, ?_⟩
    refine Option.bind_eq_some.mpr ⟨14, hkvd, ?_⟩
    rw [if_pos ⟨by omega, by rw [hsz]; decide,
      by rw [delScratch2_size]; decide⟩]
    unfold delScratch3
    rw [show (28:Nat) - 24 = 4 from rfl]
  -- range 2 copies nothing
  have hrange2 : nodeAppendRange (delScratch3 node) node 1 2
      (sub16 2 2) = some (delScratch3 node) := by
    unfold nodeAppendRange
    rw [hn, show sub16 2 2 = 0 from by decide]
    rw [if_pos (by omega), if_pos (by rw [delScratch3_nkeys]),
      if_pos rfl]
  have hld : leafDelete (zeros (2*BTREE_PAGE_SIZE)) node 1 =
      some (delScratch3 node) := by
    unfold leafDelete
    rw [hn]
    refine Option.bind_eq_some.mpr ⟨delScratch0, ?_, ?_⟩
    · unfold setHeader
      refine Option.bind_eq_some.mpr
        ⟨wrLE (zeros (2*BTREE_PAGE_SIZE)) 0 BNODE_LEAF 2, ?_, ?_⟩
      · unfold wr16
        rw [if_pos (by decide)]
      · unfold wr16
        rw [if_pos (by rw [wrLE_size]; decide)]
        rfl
    · refine Option.bind_eq_some.mpr ⟨_, hrange1, ?_⟩
      rw [show sub16 2 (1+1) = sub16 2 2 from rfl]
      exact hrange2
  -- the recursive delete returns the 1-entry leaf
  have htd : treeDelete s node k 1 = some (delScratch3 node, s) := by
    simp only [treeDelete]
    refine Option.bind_eq_some.mpr ⟨1, hlook, ?_⟩
    rw [if_pos hbt]
    refine Option.bind_eq_some.mpr ⟨k, hk1, ?_⟩
    rw [if_pos rfl]
    refine Option.bind_eq_some.mpr ⟨_, hld, rfl⟩
  -- the sentinel key is still readable in the result
  have h14 : rd16 (delScratch3 node) 14 = 0 := by
    have hd0 : (delScratch3 node).data 14 = 0 := by
      have := copyList_data_in (readBytes node 24 4) (delScratch2 node)
        14 0 (by simp [readBytes]) (by rw [delScratch2_size]; decide)
      simp only [Nat.add_zero] at this
      show (copyList (delScratch2 node) 14 (readBytes node 24 4)).data 14 = 0
      rw [this]
      show (readBytes node 24 4).getD 0 0 % 256 = 0
      have : (readBytes node 24 4).getD 0 0 = byteAt node 24 := rfl
      rw [this, hb24.1]
    have hd1 : (delScratch3 node).data 15 = 0 := by
      have := copyList_data_in (readBytes node 24 4) (delScratch2 node)
        14 1 (by simp [readBytes]) (by rw [delScratch2_size]; decide)
      rw [show (14:Nat) + 1 = 15 from rfl] at this
      show (copyList (delScratch2 node) 14 (readBytes node 24 4)).data 15 = 0
      rw [this]
      show (readBytes node 24 4).getD 1 0 % 256 = 0
      have : (readBytes node 24 4).getD 1 0 = byteAt node 25 := rfl
      rw [this, hb24.2]
    show byteAt (delScratch3 node) 14 +
      256*(byteAt (delScratch3 node) 15 + 256*0) = 0
    unfold byteAt
    rw [hd0, hd1]
  have hgk : getKey (delScratch3 node) 0 = some [] := by
    unfold getKey
    rw [delScratch3_nkeys, if_pos (by omega), delScratch3_kvpos0]
    refine Option.bind_eq_some.mpr ⟨14, rfl, ?_⟩
    rw [if_pos (by rw [delScratch3_size]; decide)]
    show (if 14 + 4 + rd16 (delScratch3 node) 14 ≤ (delScratch3 node).size
        then some (readBytes (delScratch3 node) (14+4)
          (rd16 (delScratch3 node) 14))
        else none) = some []
    rw [h14, if_pos (by rw [delScratch3_size]; decide)]
    rfl
  -- assemble the full Delete call
  refine ⟨{ root := s.nextId,
            pages := fun p => if p = s.nextId then some (delScratch3 node)
                     else if p = s.root then none else s.pages p,
            nextId := s.nextId + 1, allocs := s.allocs + 1,
            frees := s.frees + 1 },
          ?_, hnz, delScratch3 node, ?_, delScratch3_btype node,
          delScratch3_nkeys node, hgk⟩
  · unfold Delete
    rw [if_neg hroot]
    refine Option.bind_eq_some.mpr ⟨node, hpage, ?_⟩
    refine Option.bind_eq_some.mpr ⟨(delScratch3 node, s), htd, ?_⟩
    dsimp only
    rw [if_neg (by rw [delScratch3_size]; decide)]
    refine Option.bind_eq_some.mpr
      ⟨{ s with
         pages := fun p => if p = s.root then none else s.pages p,
         frees := s.frees + 1 }, ?_, ?_⟩
    · unfold pageDel
      rw [if_pos (by rw [hpage]; rfl)]
    · rw [if_neg (by
        intro hcon
        have := hcon.1
        rw [delScratch3_btype] at this
        exact absurd this (by decide))]
      rw [if_neg (by
        intro hcon
        have := hcon.2
        rw [delScratch3_nkeys] at this
        exact absurd this (by decide))]
      refine Option.bind_eq_some.mpr ⟨18, delScratch3_nbytes node, ?_⟩
      rw [if_pos (by decide)]
      refine Option.bind_eq_some.mpr
        ⟨(s.nextId,
          { root := s.root,
            pages := fun p => if p = s.nextId then some (delScratch3 node)
                     else if p = s.root then none else s.pages p,
            nextId := s.nextId + 1, allocs := s.allocs + 1,
            frees := s.frees + 1 }), ?_, ?_⟩
      · unfold pageNew
        refine Option.bind_eq_some.mpr ⟨18, delScratch3_nbytes node, ?_⟩
        rw [if_pos (by decide), if_pos ⟨(by
          show (if s.nextId = s.root then (none : Option BNode)
            else s.pages s.nextId).isNone = true
          split
          · rfl
          · rw [hfresh]
            rfl), hnz⟩]
      · rfl
  · show (if s.nextId = s.nextId then some (delScratch3 node)
      else if s.nextId = s.root then none else s.pages s.nextId)
      = some (delScratch3 node)
    rw [if_pos rfl]

theorem delete_sole_user_key_keeps_sentinel_root_witness :
    ∃ s', Delete sC6 [107] 1 = some (true, s') ∧ s'.root ≠ 0 ∧
      ∃ leaf1, s'.pages s'.root = some leaf1 ∧
        btype leaf1 = BNODE_LEAF ∧ nkeys leaf1 = 1 ∧
        getKey leaf1 0 = some [] :=
  delete_sole_user_key_keeps_sentinel_root sC6 leafC6 [107]
    (by decide) rfl (by decide) (by decide) (by decide) (by decide)
    (by decide) (by decide) rfl (by decide)

/-- C5: confirmed.  Whenever `Delete` returns (no panic, enough fuel), it
returns `false` exactly when the tree is empty (`root = 0`) or the key is
absent under the `lookup_le` retrieval traversal with the same fuel; and
on every `false` return the state — the page store, the root page id, and
the `allocate`/`free` call counters — is exactly the input state. -/
theorem Delete_false_iff_absent (s : BTreeState) (key : List Nat)
    (fuel : Nat) (b : Bool) (s' : BTreeState)
    (h : Delete s key fuel = some (b, s')) :
    (b = false ↔ (s.root = 0 ∨ treeGet s key fuel = some none)) ∧
    (b = false → s' = s) := by
  unfold Delete at h
  by_cases hr : s.root = 0
  · rw [if_pos hr] at h
    cases h
    exact ⟨⟨fun _ => Or.inl hr, fun _ => rfl⟩, fun _ => rfl⟩
  · rw [if_neg hr] at h
    obtain ⟨rootNode, hroot, h⟩ := Option.bind_eq_some.mp h
    obtain ⟨⟨upd, s1⟩, hdel, h⟩ := Option.bind_eq_some.mp h
    dsimp only at h
    have L := treeDelete_get fuel s rootNode key upd s1 hdel
    have hget : treeGet s key fuel = treeGetNode s key fuel rootNode := by
      unfold treeGet
      rw [if_neg hr, hroot]
      rfl
    by_cases hu : upd.size = 0
    · rw [if_pos hu] at h
      cases h
      obtain ⟨hg, hs⟩ := L.1 hu
      refine ⟨⟨fun _ => Or.inr ?_, fun _ => rfl⟩, fun _ => hs⟩
      rw [hget]
      exact hg
    · rw [if_neg hu] at h
      obtain ⟨s2, _, h⟩ := Option.bind_eq_some.mp h
      have hb : b = true := by
        split at h
        · obtain ⟨p, _, h⟩ := Option.bind_eq_some.mp h
          obtain ⟨nr, _, h⟩ := Option.bind_eq_some.mp h
          obtain ⟨⟨np, s3⟩, _, h⟩ := Option.bind_eq_some.mp h
          dsimp only at h
          obtain ⟨s4, _, h⟩ := Option.bind_eq_some.mp h
          cases h; rfl
        · split at h
          · cases h; rfl
          · obtain ⟨ub, _, h⟩ := Option.bind_eq_some.mp h
            split at h
            · obtain ⟨⟨np, s3⟩, _, h⟩ := Option.bind_eq_some.mp h
              dsimp only at h
              cases h; rfl
            · obtain ⟨⟨nsplit, sp⟩, _, h⟩ := Option.bind_eq_some.mp h
              dsimp only at h
              split at h
              · obtain ⟨nb, _, h⟩ := Option.bind_eq_some.mp h
                obtain ⟨⟨bb, s3⟩, _, h⟩ := Option.bind_eq_some.mp h
                dsimp only at h
                obtain ⟨⟨np, s4⟩, _, h⟩ := Option.bind_eq_some.mp h
                dsimp only at h
                cases h; rfl
              · obtain ⟨⟨np, s3⟩, _, h⟩ := Option.bind_eq_some.mp h
                dsimp only at h
                cases h; rfl
      subst hb
      constructor
      · constructor
        · intro hf; cases hf
        · intro hor
          rcases hor with hr2 | hab
          · exact absurd hr2 hr
          · rw [hget] at hab
            exact absurd rfl (L.2 hu none hab)
      · intro hf; cases hf

/-- Witness for C5: on the empty tree, `Delete` of the key `[5]` returns
`false`, the state is unchanged, and the iff holds. -/
theorem Delete_false_iff_absent_witness :
    Delete s0 [5] 1 = some (false, s0) ∧
    ((false = false ↔ (s0.root = 0 ∨ treeGet s0 [5] 1 = some none)) ∧
      (false = false → s0 = s0)) :=
  ⟨rfl, Delete_false_iff_absent s0 [5] 1 false s0 rfl⟩

set_option maxRecDepth 100000 in
set_option synthInstance.maxSize 1000 in
/-- C9: refuted on the code.  On an internal node with 4 entries
`(11,"")`, `(12,"b")`, `(13,"c")`, `(14,"d")`, `nodeReplace2Kid` at
index 1 with `(77,"b")` yields 3 entries, but slot 2 holds `(0, "")`
(never written — the tail copy landed at slot 1 and was overwritten by
the patch), not old entry 3 `(14,"d")` as the claim requires. -/
theorem nodeReplace2Kid_garbage_last_slot :
    (oldC9.bind fun o => some (nkeys o, getPtr o 3, getKey o 3)) =
      some (4, some 14, some [100]) ∧
    (oldC9.bind fun o =>
      (nodeReplace2Kid (zeros BTREE_PAGE_SIZE) o 1 77 [98]).map fun r =>
        (nkeys r, getPtr r 1, getKey r 1, getPtr r 2, getKey r 2)) =
      some (3, some 77, some [98], some 0, some []) := by
  exact ⟨by decide, by decide⟩

end GoDB
